import Mathlib

/-!
A verification development for viewplan.py: a shallow embedding of the
program's pure core (the category mapper, the coordinate projector, the
altitude filter, the eyepiece chooser, and the tour optimizer), together
with theorems settling the specification's claims about them.

Modelling conventions:
* Python floats are modelled as real numbers.
* Fallible code is modelled with Option: a Python exception (IndexError,
  KeyError, NameError) and the None return of optimize_order when no
  candidate beats the initial 1e10 bound are both modelled as none, since
  every caller of optimize_order crashes on a None result as well.
* Python's stable list.sort with key -x is modelled by insertion sort with
  the total preorder "x of the right operand is at most x of the left",
  which is the unique stable descending-by-x sort.
* itertools.permutations enumerates index sequences in lexicographic
  order; lexPerms below reproduces exactly that enumeration order.
-/

namespace Viewplan

/-- Python math.degrees: convert radians to degrees. -/
noncomputable def toDegrees (x : ℝ) : ℝ := x * 180 / Real.pi

/-- Degrees to radians, used to state spec-side claims whose angles are
given in degrees. -/
noncomputable def toRadians (x : ℝ) : ℝ := x * Real.pi / 180

/-- The type-subfield code to description table of describe_body
(viewplan.py lines 29-50). -/
def FIXED_BODY_MAP : List (String × String) :=
  [ ("A", "cluster of galaxies"),
    ("B", "binary star"),
    ("C", "globular cluster"),
    ("D", "visual double star"),
    ("F", "diffuse nebula"),
    ("G", "spiral galaxy"),
    ("H", "spherical galaxy"),
    ("J", "radio object"),
    ("K", "dark nebula"),
    ("L", "pulsar"),
    ("M", "multiple star"),
    ("N", "bright nebula"),
    ("O", "open cluster"),
    ("P", "planetary nebula"),
    ("Q", "quasar"),
    ("R", "supernova remnant"),
    ("S", "star"),
    ("T", "stellar object"),
    ("U", "nebulous cluster"),
    ("V", "variable star"),
    ("Y", "supernova") ]

/-- Python's substring containment test a in b on strings. -/
def pyIn (a b : String) : Bool := decide (a.data <:+: b.data)

/-- describe_body (viewplan.py lines 20-55). The argument is the list of
type subfields. none models the exceptions the Python code can raise:
IndexError on an empty list or on "f" without a second subfield, and
KeyError on "f" with a subtype absent from FIXED_BODY_MAP. -/
def describe_body (subfields : List String) : Option String :=
  match subfields with
  | [] => none
  | s0 :: rest =>
    if s0 = "P" then some "planet"
    else if s0 = "E" then some "satellite"
    else if pyIn s0 "ehp" then some "planetoid"
    else if s0 = "f" then
      match rest with
      | [] => none
      | s1 :: _ => List.lookup s1 FIXED_BODY_MAP
    else some "?"

/-- body_in_altitude_range (viewplan.py lines 111-114): the chained
comparison maxAlt > degrees(alt) > minAlt on the altitude in radians. -/
noncomputable def body_in_altitude_range (altRad minAlt maxAlt : ℝ) : Bool :=
  decide (maxAlt > toDegrees altRad ∧ toDegrees altRad > minAlt)

/-- The coordinate projection of present_plan (viewplan.py lines 269-273):
r = 90 - degrees(alt), x = sin(az) * r, y = cos(az) * r, with alt and az in
radians as PyEphem provides them. -/
noncomputable def project (altRad azRad : ℝ) : ℝ × ℝ :=
  (Real.sin azRad * (90 - toDegrees altRad), Real.cos azRad * (90 - toDegrees altRad))

/-- Python's int() truncation toward zero on a real. -/
noncomputable def intTrunc (x : ℝ) : ℤ := if 0 ≤ x then ⌊x⌋ else ⌈x⌉

/-- eyepiece_for_size (viewplan.py lines 152-173). The first parameter
models the module-global variable named body that line 161 actually
consults (the function tests body.size, not its size parameter): it is
some s when a global body with angular size s leaked from the magnitude
filtering loops of the main block, and none when no such global exists, in
which case the Python code raises NameError (modelled as none). -/
noncomputable def eyepiece_for_size (globalBodySize : Option ℝ) (size : ℝ) : Option String :=
  match globalBodySize with
  | none => none
  | some bs =>
    if bs < 1 then some " "
    else some (toString (if intTrunc (size * 0.004) < 3 then 3
                         else intTrunc (size * 0.004)) ++ "mm")

/-- The per-entry eyepiece choice of present_plan (viewplan.py lines
284-287): a blank for descriptions containing "star", otherwise
eyepiece_for_size on the angular size. -/
noncomputable def plan_eyepiece (globalBodySize : Option ℝ) (desc : String) (size : ℝ) :
    Option String :=
  if pyIn "star" desc then some " " else eyepiece_for_size globalBodySize size

section Claims_C7_C8_C9_C10

/-- C7: the category mapping. The claim as stated fails: Python's
subfields[0] in "ehp" is a substring test, so the unrecognized codes "eh",
"hp", "ehp" and the empty string also map to "planetoid" rather than "?",
and "f" with a subtype outside the table raises KeyError instead of
falling back to "?". This counterexample exhibits both. -/
theorem claim_C7_counterexample :
    describe_body ["eh"] = some "planetoid" ∧
    ("eh" ∉ ["P", "E", "e", "h", "p", "f"]) ∧
    describe_body ["f", "Z"] = none := by
  refine ⟨by decide, by decide, by decide⟩

/-- C7 amended: P maps to planet, E to satellite, every contiguous
substring of "ehp" (so e, h, p, and also the empty string, eh, hp, ehp) to
planetoid, f with a subtype present in the fixed table to that entry's
label (in particular f with G to spiral galaxy), and any other category
code to the explicit unknown label "?" without an error; f with a subtype
outside the table is a KeyError (modelled none), not "?". The table has 21
entries, not the 20 the specification counts. -/
theorem claim_C7_amended :
    FIXED_BODY_MAP.length = 21 ∧
    (∀ rest, describe_body ("P" :: rest) = some "planet") ∧
    (∀ rest, describe_body ("E" :: rest) = some "satellite") ∧
    (∀ s rest, pyIn s "ehp" = true → describe_body (s :: rest) = some "planetoid") ∧
    (∀ sub label rest, (sub, label) ∈ FIXED_BODY_MAP →
      describe_body ("f" :: sub :: rest) = some label) ∧
    (∀ rest, describe_body ("f" :: "G" :: rest) = some "spiral galaxy") ∧
    (∀ s rest, s ≠ "P" → s ≠ "E" → s ≠ "f" → pyIn s "ehp" = false →
      describe_body (s :: rest) = some "?") := by
  refine ⟨by decide, fun rest => rfl, fun rest => rfl, ?_, ?_, ?_, ?_⟩
  · intro s rest hs
    have hP : s ≠ "P" := by rintro rfl; exact absurd hs (by decide)
    have hE : s ≠ "E" := by rintro rfl; exact absurd hs (by decide)
    simp [describe_body, hP, hE, hs]
  · intro sub label rest hmem
    have hf : ¬ (['f'] <:+: ['e', 'h', 'p']) := by decide
    have hsub : sub ∈ FIXED_BODY_MAP.map Prod.fst := by
      exact List.mem_map.mpr ⟨(sub, label), hmem, rfl⟩
    fin_cases hsub <;> simp_all [describe_body, FIXED_BODY_MAP, pyIn, List.lookup, hf]
  · intro rest
    have hf : ¬ (['f'] <:+: ['e', 'h', 'p']) := by decide
    simp [describe_body, pyIn, FIXED_BODY_MAP, List.lookup, hf]
  · intro s rest hP hE hf hs
    simp [describe_body, hP, hE, hf, hs]

/-- C7 witness: the amended theorem applied at concrete inputs. -/
theorem claim_C7_witness :
    describe_body ["P"] = some "planet" ∧
    describe_body ["hp"] = some "planetoid" ∧
    describe_body ["f", "G"] = some "spiral galaxy" ∧
    describe_body ["Z"] = some "?" :=
  ⟨claim_C7_amended.2.1 [],
   claim_C7_amended.2.2.2.1 "hp" [] (by decide),
   claim_C7_amended.2.2.2.2.2.1 [],
   claim_C7_amended.2.2.2.2.2.2 "Z" [] (by decide) (by decide) (by decide) (by decide)⟩

/-- C8: the coordinate projector. For altitudes in degrees in [-90, 90]
and azimuths in degrees in [0, 360), the projection of the radian angles
PyEphem supplies equals the planar point with r = 90 - altitude in
degrees, x = r * sin(azimuth), y = r * cos(azimuth); it is a total
function of the two angles. -/
theorem claim_C8_projector (altDeg azDeg : ℝ)
    (h1 : -90 ≤ altDeg) (h2 : altDeg ≤ 90) (h3 : 0 ≤ azDeg) (h4 : azDeg < 360) :
    project (toRadians altDeg) (toRadians azDeg) =
      ((90 - altDeg) * Real.sin (toRadians azDeg),
       (90 - altDeg) * Real.cos (toRadians azDeg)) := by
  have hpi : Real.pi ≠ 0 := Real.pi_ne_zero
  have hdeg : toDegrees (toRadians altDeg) = altDeg := by
    unfold toDegrees toRadians
    field_simp
  rw [project, hdeg, mul_comm (Real.sin (toRadians azDeg)) _,
    mul_comm (Real.cos (toRadians azDeg)) _]

/-- C8 witness: the projector claim instantiated at altitude 30 degrees,
azimuth 90 degrees. -/
theorem claim_C8_witness :
    project (toRadians 30) (toRadians 90) =
      ((90 - 30) * Real.sin (toRadians 90), (90 - 30) * Real.cos (toRadians 90)) :=
  claim_C8_projector 30 90 (by norm_num) (by norm_num) (by norm_num) (by norm_num)

/-- C9: the eyepiece suggestion. The claim fails on the code: line 161
tests the leaked module-global body.size instead of the size argument, so
a point-like target (angular size 1/2 arc-second, below 1) still gets the
string "3mm" whenever the leaked global body has size at least 1, and the
call fails (NameError, modelled none) when no global body exists. The
star-category blank of present_plan does hold. -/
theorem claim_C9_code_bug :
    plan_eyepiece (some 10) "planet" (1/2) = some "3mm" ∧
    ((1 : ℝ)/2 < 1) ∧
    plan_eyepiece none "planet" (1/2) = none ∧
    plan_eyepiece (some 10) "variable star" (1/2) = some " " := by
  have hsub : pyIn "star" "planet" = false := by decide
  have hsub2 : pyIn "star" "variable star" = true := by decide
  refine ⟨?_, by norm_num, ?_, ?_⟩
  · have h10 : ¬ ((10 : ℝ) < 1) := by norm_num
    have hmm : intTrunc ((1/2 : ℝ) * 0.004) = 0 := by
      have hq : ((1/2 : ℝ) * 0.004) = 1/500 := by norm_num
      rw [intTrunc, hq, if_pos (by norm_num : (0:ℝ) ≤ 1/500)]
      rw [Int.floor_eq_zero_iff]
      constructor <;> norm_num
    simp only [plan_eyepiece, hsub, Bool.false_eq_true, if_false, eyepiece_for_size]
    rw [if_neg h10, hmm]
    decide
  · simp only [plan_eyepiece, hsub, Bool.false_eq_true, if_false, eyepiece_for_size]
  · simp [plan_eyepiece, hsub2]

/-- C10: the altitude window is open at both ends; a body exactly at
either bound is excluded. -/
theorem claim_C10_altitude_window (a mn mx : ℝ) :
    (body_in_altitude_range a mn mx = true ↔
      mn < toDegrees a ∧ toDegrees a < mx) ∧
    (toDegrees a = mn → body_in_altitude_range a mn mx = false) ∧
    (toDegrees a = mx → body_in_altitude_range a mn mx = false) := by
  refine ⟨?_, ?_, ?_⟩
  · simp [body_in_altitude_range, and_comm]
  · intro h
    simp [body_in_altitude_range, h]
  · intro h
    simp [body_in_altitude_range, h]

/-- C10 witness: a body sitting exactly at the minimum altitude bound (pi
over 6 radians is 30 degrees) is excluded. -/
theorem claim_C10_witness : body_in_altitude_range (Real.pi / 6) 30 70 = false := by
  have h : toDegrees (Real.pi / 6) = 30 := by
    rw [toDegrees]
    field_simp
    ring
  exact (claim_C10_altitude_window (Real.pi / 6) 30 70).2.1 h

end Claims_C7_C8_C9_C10

/-- A located viewing target as optimize_order receives it: an
((x, y), description, body) tuple. The payload beta stands for the
description-and-body part, which the optimizer never inspects. -/
abbrev Pt (β : Type) : Type := (ℝ × ℝ) × β

variable {β : Type}

/-- The x coordinate of a located target. -/
def xc (p : Pt β) : ℝ := p.1.1

/-- The y coordinate of a located target. -/
def yc (p : Pt β) : ℝ := p.1.2

/-- The sort order of optimize_order line 217: ascending in the key -x,
that is, descending in x (west first under this projection). -/
def wle (p q : Pt β) : Prop := xc q ≤ xc p

noncomputable instance : DecidableRel (wle (β := β)) :=
  fun p q => Real.decidableLE (xc q) (xc p)

instance : IsTotal (Pt β) wle := ⟨fun p q => (le_total (xc q) (xc p)).imp id id⟩

instance : IsTrans (Pt β) wle := ⟨fun _ _ _ h1 h2 => le_trans h2 h1⟩

/-- Python's stable list.sort with key -x (line 217), modelled as the
stable insertion sort for the total preorder wle. -/
noncomputable def sortWE (l : List (Pt β)) : List (Pt β) := List.insertionSort wle l

/-- Python math.hypot. -/
noncomputable def hypot (dx dy : ℝ) : ℝ := Real.sqrt (dx ^ 2 + dy ^ 2)

/-- path_length (viewplan.py lines 192-208): the sum of the Euclidean
distances of consecutive pairs. -/
noncomputable def path_length : List (Pt β) → ℝ
  | p :: q :: rest => hypot (xc q - xc p) (yc q - yc p) + path_length (q :: rest)
  | _ => 0

/-- Fuelled helper for lexPerms; the fuel is always the list length. -/
def lexPermsAux {α : Type} : ℕ → List α → List (List α)
  | _, [] => [[]]
  | 0, _ :: _ => []
  | (fuel+1), x :: xs =>
      (List.finRange (x :: xs).length).flatMap fun i =>
        (lexPermsAux fuel ((x :: xs).eraseIdx i)).map ((x :: xs).get i :: ·)

/-- itertools.permutations (line 242): all permutations of the list, in
lexicographic order of the picked index sequences; in particular the list
itself comes first. -/
def lexPerms {α : Type} (l : List α) : List (List α) := lexPermsAux l.length l

/-- One step of the best-candidate fold of optimize_order lines 242-250:
build the candidate first :: perm ++ [lastP] and keep it exactly when its
path length is strictly below the best length so far. -/
noncomputable def pb_step (first lastP : Pt β) (best : Option (List (Pt β)) × ℝ)
    (perm : List (Pt β)) : Option (List (Pt β)) × ℝ :=
  if path_length (first :: perm ++ [lastP]) < best.2 then
    (some (first :: perm ++ [lastP]), path_length (first :: perm ++ [lastP]))
  else best

/-- The best-candidate fold of optimize_order lines 236-250: best_length
starts at 1e10, best_candidate at None. -/
noncomputable def pick_best (first lastP : Pt β) (perms : List (List (Pt β))) :
    Option (List (Pt β)) × ℝ :=
  perms.foldl (pb_step first lastP) (none, 1e10)

/-- The exhaustive-search threshold (line 190). -/
def OPTIMIZATION_SUBDIVIDE_LIMIT : ℕ := 10

/-- optimize_order (viewplan.py lines 210-252). The output is none when
the Python code does not return a list: on the empty list the candidate
construction raises IndexError at located[0], and when every candidate
path length is at least 1e10 the fold returns None (on which every caller
then crashes). In the long-list branch the code recurses on a[:-1] with
a = located[:half+1] and b = located[half:], so the pivot element is
removed from the first half before the recursive call, and the two parts
are concatenated unchanged. -/
noncomputable def optimize_order (located : List (Pt β)) : Option (List (Pt β)) :=
  if h : OPTIMIZATION_SUBDIVIDE_LIMIT < (sortWE located).length then
    (optimize_order (((sortWE located).take ((sortWE located).length / 2 + 1)).dropLast)).bind
      fun ra =>
        (optimize_order ((sortWE located).drop ((sortWE located).length / 2))).map
          fun rb => ra ++ rb
  else
    match sortWE located with
    | [] => none
    | s0 :: rest => (pick_best s0 (rest.getLastD s0) (lexPerms rest.dropLast)).1
termination_by located.length
decreasing_by
  all_goals
    have hlen : (sortWE located).length = located.length :=
      (List.perm_insertionSort wle located).length_eq
    simp only [OPTIMIZATION_SUBDIVIDE_LIMIT, hlen, List.length_dropLast, List.length_take,
      List.length_drop] at h ⊢
    omega

/-- Modelled from the spec (section 4.2 step 3, the basis of claim C3): in
the long-list branch, both overlapping halves including the shared pivot
are optimized recursively, and the pivot's duplicate occurrence is dropped
from the end of the first half's solved sub-tour before concatenation.
This is the claimed behavior, to be compared with optimize_order above. -/
noncomputable def optimize_order_spec (located : List (Pt β)) : Option (List (Pt β)) :=
  if h : OPTIMIZATION_SUBDIVIDE_LIMIT < (sortWE located).length then
    (optimize_order_spec ((sortWE located).take ((sortWE located).length / 2 + 1))).bind
      fun ra =>
        (optimize_order_spec ((sortWE located).drop ((sortWE located).length / 2))).map
          fun rb => ra.dropLast ++ rb
  else
    match sortWE located with
    | [] => none
    | s0 :: rest => (pick_best s0 (rest.getLastD s0) (lexPerms rest.dropLast)).1
termination_by located.length
decreasing_by
  all_goals
    have hlen : (sortWE located).length = located.length :=
      (List.perm_insertionSort wle located).length_eq
    simp only [OPTIMIZATION_SUBDIVIDE_LIMIT, hlen, List.length_take,
      List.length_drop] at h ⊢
    omega

section OptimizerBasics

open List

/-- Sorting is a permutation. -/
theorem sortWE_perm (l : List (Pt β)) : sortWE l ~ l := List.perm_insertionSort wle l

/-- Sorting preserves length. -/
theorem length_sortWE (l : List (Pt β)) : (sortWE l).length = l.length :=
  (sortWE_perm l).length_eq

/-- The sort output is sorted for the descending-x preorder. -/
theorem sortWE_sorted (l : List (Pt β)) : (sortWE l).Sorted wle :=
  List.sorted_insertionSort wle l

/-- Sorting a sorted list changes nothing. -/
theorem sortWE_of_sorted {l : List (Pt β)} (h : l.Sorted wle) : sortWE l = l :=
  h.insertionSort_eq

/-- Sorting twice is sorting once. -/
theorem sortWE_idem (l : List (Pt β)) : sortWE (sortWE l) = sortWE l :=
  sortWE_of_sorted (sortWE_sorted l)

/-- A list that is a permutation of a descending-x block followed by a pivot
whose x is no larger: its last element after sorting stays at the end. -/
theorem dropLast_take {l : List (Pt β)} {k : ℕ} (h : k < l.length) :
    (l.take (k + 1)).dropLast = l.take k := by
  rw [List.dropLast_eq_take, List.take_take, List.length_take]
  have : min (k + 1) l.length = k + 1 := by omega
  rw [this]
  have : min (k + 1 - 1) (k + 1) = k := by omega
  rw [this]

/-- The fold of pick_best never increases the best length. -/
theorem pb_foldl_snd_le (f e : Pt β) (perms : List (List (Pt β)))
    (acc : Option (List (Pt β)) × ℝ) :
    (perms.foldl (pb_step f e) acc).2 ≤ acc.2 := by
  induction perms generalizing acc with
  | nil => simp
  | cons p ps ih =>
    rw [List.foldl_cons]
    refine le_trans (ih _) ?_
    rw [pb_step]
    split
    · exact le_of_lt (by assumption)
    · exact le_rfl

/-- After the fold, the best length is at most every candidate's length. -/
theorem pb_foldl_min (f e : Pt β) (perms : List (List (Pt β)))
    (acc : Option (List (Pt β)) × ℝ) :
    ∀ q ∈ perms, (perms.foldl (pb_step f e) acc).2 ≤ path_length (f :: q ++ [e]) := by
  induction perms generalizing acc with
  | nil => intro q hq; exact absurd hq (by simp)
  | cons p ps ih =>
    intro q hq
    rw [List.foldl_cons]
    rcases List.mem_cons.mp hq with rfl | hq
    · refine le_trans (pb_foldl_snd_le f e ps _) ?_
      rw [pb_step]
      split
      · exact le_rfl
      · exact le_of_not_lt (by assumption)
    · exact ih _ q hq

/-- The fold result is the initial accumulator, or a strictly improving
candidate from the list together with its length. -/
theorem pb_foldl_result (f e : Pt β) (perms : List (List (Pt β)))
    (acc : Option (List (Pt β)) × ℝ) :
    perms.foldl (pb_step f e) acc = acc ∨
    ∃ p ∈ perms, perms.foldl (pb_step f e) acc =
        (some (f :: p ++ [e]), path_length (f :: p ++ [e])) ∧
      (perms.foldl (pb_step f e) acc).2 < acc.2 := by
  induction perms generalizing acc with
  | nil => exact Or.inl rfl
  | cons p ps ih =>
    rw [List.foldl_cons]
    by_cases h : path_length (f :: p ++ [e]) < acc.2
    · right
      have hstep : pb_step f e acc p = (some (f :: p ++ [e]), path_length (f :: p ++ [e])) := by
        rw [pb_step, if_pos h]
      rw [hstep]
      rcases ih (some (f :: p ++ [e]), path_length (f :: p ++ [e])) with heq | ⟨q, hq, heq, hlt⟩
      · exact ⟨p, by simp, heq, by rw [heq]; exact h⟩
      · exact ⟨q, by simp [hq], heq, lt_trans hlt h⟩
    · have hstep : pb_step f e acc p = acc := by rw [pb_step, if_neg h]
      rw [hstep]
      rcases ih acc with heq | ⟨q, hq, heq, hlt⟩
      · exact Or.inl heq
      · exact Or.inr ⟨q, by simp [hq], heq, hlt⟩

/-- Characterization of a successful pick_best: the result is a candidate
built from one of the permutations, its length is below 1e10, and it is a
minimizer over all listed permutations. -/
theorem pick_best_spec {f e : Pt β} {perms : List (List (Pt β))} {c : List (Pt β)}
    (h : (pick_best f e perms).1 = some c) :
    ∃ p ∈ perms, c = f :: p ++ [e] ∧ path_length c < 1e10 ∧
      ∀ q ∈ perms, path_length c ≤ path_length (f :: q ++ [e]) := by
  rcases pb_foldl_result f e perms (none, 1e10) with heq | ⟨p, hp, heq, hlt⟩
  · rw [pick_best] at h
    rw [heq] at h
    exact absurd h (by simp)
  · rw [pick_best] at h
    rw [heq] at h
    have hc : c = f :: p ++ [e] := by simpa using h.symm
    refine ⟨p, hp, hc, ?_, ?_⟩
    · rw [hc]
      have h2 : (List.foldl (pb_step f e) (none, 1e10) perms).2 = path_length (f :: p ++ [e]) := by
        rw [heq]
      rw [← h2]
      simpa using hlt
    · intro q hq
      have := pb_foldl_min f e perms (none, 1e10) q hq
      rw [heq] at this
      rw [hc]
      simpa using this

/-- If some listed permutation yields a candidate below 1e10, pick_best
returns a candidate. -/
theorem pick_best_some {f e : Pt β} {perms : List (List (Pt β))} {p : List (Pt β)}
    (hp : p ∈ perms) (h : path_length (f :: p ++ [e]) < 1e10) :
    ∃ c, (pick_best f e perms).1 = some c := by
  rcases pb_foldl_result f e perms (none, 1e10) with heq | ⟨q, _, heq, _⟩
  · exfalso
    have hle := pb_foldl_min f e perms (none, 1e10) p hp
    rw [heq] at hle
    simp only at hle
    have : (1e10 : ℝ) < 1e10 := lt_of_le_of_lt hle h
    exact lt_irrefl _ this
  · exact ⟨f :: q ++ [e], by rw [pick_best, heq]⟩

end OptimizerBasics

section LexPermsLemmas

open List

/-- Removing the element at an index and re-consing it is a permutation. -/
theorem perm_get_cons_eraseIdx (l : List α) (i : Fin l.length) :
    l.get i :: l.eraseIdx i ~ l := by
  have hdecomp : l = l.take i ++ l.get i :: l.drop (i + 1) := by
    conv_lhs => rw [← List.take_append_drop i l]
    congr 1
    rw [List.drop_eq_getElem_cons i.isLt]
    rfl
  rw [List.eraseIdx_eq_take_drop_succ]
  calc l.get i :: (l.take i ++ l.drop (i + 1)) ~ l.take i ++ l.get i :: l.drop (i + 1) :=
        List.perm_middle.symm
    _ = l := hdecomp.symm

/-- Everything lexPermsAux enumerates is a permutation of the input. -/
theorem lexPermsAux_sound {α : Type} :
    ∀ (fuel : ℕ) (l : List α) (p : List α), l.length ≤ fuel →
      p ∈ lexPermsAux fuel l → p ~ l := by
  intro fuel
  induction fuel with
  | zero =>
    intro l p hlen hp
    match l with
    | [] =>
      simp only [lexPermsAux, List.mem_singleton] at hp
      simp [hp]
    | x :: xs => simp at hlen
  | succ fuel ih =>
    intro l p hlen hp
    match l with
    | [] =>
      simp only [lexPermsAux, List.mem_singleton] at hp
      simp [hp]
    | x :: xs =>
      rw [lexPermsAux] at hp
      rcases List.mem_flatMap.mp hp with ⟨i, _, hpi⟩
      rcases List.mem_map.mp hpi with ⟨q, hq, rfl⟩
      have hlen2 : ((x :: xs).eraseIdx i).length ≤ fuel := by
        rw [List.length_eraseIdx]
        simp only [i.isLt, if_pos]
        simp at hlen ⊢
        omega
      exact ((ih _ q hlen2 hq).cons _).trans (perm_get_cons_eraseIdx (x :: xs) i)

/-- Every permutation of the input is enumerated by lexPermsAux. -/
theorem lexPermsAux_complete {α : Type} :
    ∀ (fuel : ℕ) (l : List α) (p : List α), l.length ≤ fuel →
      p ~ l → p ∈ lexPermsAux fuel l := by
  intro fuel
  induction fuel with
  | zero =>
    intro l p hlen hp
    match l with
    | [] =>
      rw [List.perm_nil] at hp
      simp [hp, lexPermsAux]
    | x :: xs => simp at hlen
  | succ fuel ih =>
    intro l p hlen hp
    match l with
    | [] =>
      rw [List.perm_nil] at hp
      simp [hp, lexPermsAux]
    | x :: xs =>
      match p with
      | [] => exact absurd hp.symm (by simp)
      | a :: p' =>
        have ha : a ∈ (x :: xs) := hp.mem_iff.mp (by simp)
        rcases List.mem_iff_get.mp ha with ⟨i, hi⟩
        have hperm : a :: p' ~ a :: (x :: xs).eraseIdx i := by
          refine hp.trans ?_
          rw [← hi]
          exact (perm_get_cons_eraseIdx (x :: xs) i).symm
        have hp' : p' ~ (x :: xs).eraseIdx i := hperm.cons_inv
        have hlen2 : ((x :: xs).eraseIdx i).length ≤ fuel := by
          rw [List.length_eraseIdx]
          simp only [i.isLt, if_pos]
          simp at hlen ⊢
          omega
        rw [lexPermsAux]
        refine List.mem_flatMap.mpr ⟨i, by simp [List.mem_finRange], ?_⟩
        refine List.mem_map.mpr ⟨p', ih _ p' hlen2 hp', ?_⟩
        rw [hi]

/-- Soundness of lexPerms. -/
theorem lexPerms_sound {α : Type} {l p : List α} (hp : p ∈ lexPerms l) : p ~ l :=
  lexPermsAux_sound l.length l p le_rfl hp

/-- Completeness of lexPerms. -/
theorem lexPerms_complete {α : Type} {l p : List α} (hp : p ~ l) : p ∈ lexPerms l :=
  lexPermsAux_complete l.length l p le_rfl hp

/-- lexPermsAux enumerates at least one permutation. -/
theorem lexPermsAux_ne_nil {α : Type} :
    ∀ (fuel : ℕ) (l : List α), l.length ≤ fuel → lexPermsAux fuel l ≠ [] := by
  intro fuel l hlen
  intro hc
  have := lexPermsAux_complete fuel l l hlen (List.Perm.refl l)
  rw [hc] at this
  simp at this

/-- The first permutation lexPermsAux enumerates is the list itself, as
with itertools.permutations. -/
theorem lexPermsAux_head {α : Type} :
    ∀ (fuel : ℕ) (l : List α), l.length ≤ fuel →
      (lexPermsAux fuel l).head? = some l := by
  intro fuel
  induction fuel with
  | zero =>
    intro l hlen
    match l with
    | [] => rfl
    | x :: xs => simp at hlen
  | succ fuel ih =>
    intro l hlen
    match l with
    | [] => rfl
    | x :: xs =>
      rw [lexPermsAux]
      have hfr : List.finRange (x :: xs).length =
          (⟨0, by simp⟩ : Fin (x :: xs).length) :: (List.finRange xs.length).map Fin.succ := by
        exact List.finRange_succ xs.length
      rw [hfr, List.flatMap_cons]
      have herase : (x :: xs).eraseIdx ((⟨0, by simp⟩ : Fin (x :: xs).length) : ℕ) = xs := rfl
      have hget : (x :: xs).get (⟨0, by simp⟩ : Fin (x :: xs).length) = x := rfl
      rw [herase, hget]
      have hxs : xs.length ≤ fuel := by simp at hlen; omega
      have hhead := ih xs hxs
      have hne : (lexPermsAux fuel xs).map (x :: ·) ≠ [] := by
        intro hc
        have := lexPermsAux_ne_nil fuel xs hxs
        simp at hc
        exact this hc
      rw [List.head?_append_of_ne_nil _ hne]
      rw [List.head?_map, hhead]
      rfl

/-- The head of lexPerms is the input list itself. -/
theorem lexPerms_head {α : Type} (l : List α) : (lexPerms l).head? = some l :=
  lexPermsAux_head l.length l le_rfl

end LexPermsLemmas

section OptimizeOrderLemmas

open List

/-- On the empty list optimize_order fails (the IndexError of line 244). -/
theorem optimize_order_nil : optimize_order ([] : List (Pt β)) = none := by
  rw [optimize_order]
  rfl

/-- Unfolding of the long-list branch: since the code recurses on a[:-1]
with a = located[:half+1], the first recursive input is exactly the first
half without the pivot. -/
theorem optimize_order_eq_split {l : List (Pt β)} (h : 10 < (sortWE l).length) :
    optimize_order l =
      (optimize_order ((sortWE l).take ((sortWE l).length / 2))).bind fun ra =>
        (optimize_order ((sortWE l).drop ((sortWE l).length / 2))).map fun rb =>
          ra ++ rb := by
  rw [optimize_order]
  rw [dif_pos (show OPTIMIZATION_SUBDIVIDE_LIMIT < (sortWE l).length from h)]
  rw [dropLast_take (show (sortWE l).length / 2 < (sortWE l).length by omega)]

/-- Unfolding of the exhaustive branch. -/
theorem optimize_order_eq_exact {l : List (Pt β)} (h : (sortWE l).length ≤ 10)
    {s0 : Pt β} {rest : List (Pt β)} (hs : sortWE l = s0 :: rest) :
    optimize_order l = (pick_best s0 (rest.getLastD s0) (lexPerms rest.dropLast)).1 := by
  rw [optimize_order]
  rw [dif_neg (show ¬ OPTIMIZATION_SUBDIVIDE_LIMIT < (sortWE l).length by
    simp only [OPTIMIZATION_SUBDIVIDE_LIMIT]; omega)]
  rw [hs]

/-- The head of an append with a nonempty left part. -/
theorem head?_append_left {l₁ l₂ : List α} (h : l₁ ≠ []) :
    (l₁ ++ l₂).head? = l₁.head? := by
  cases l₁ with
  | nil => exact absurd rfl h
  | cons x xs => rfl

/-- Taking at least one element preserves the head. -/
theorem head?_take_succ (l : List α) (k : ℕ) : (l.take (k + 1)).head? = l.head? := by
  cases l <;> rfl

/-- Dropping fewer elements than the length preserves the last element. -/
theorem getLast?_drop_of_lt {l : List α} {k : ℕ} (h : k < l.length) :
    (l.drop k).getLast? = l.getLast? := by
  have hne : l.drop k ≠ [] := by
    intro hc
    have := congrArg List.length hc
    simp at this
    omega
  conv_rhs => rw [← List.take_append_drop k l]
  rw [List.getLast?_append_of_ne_nil _ hne]

/-- A single point: the exhaustive branch builds the candidate
[located[0]] + [] + [located[-1]] twice over the same element, so the
point is returned duplicated. -/
theorem opt_singleton (p : Pt β) : optimize_order [p] = some [p, p] := by
  have hs : sortWE [p] = [p] := rfl
  rw [optimize_order_eq_exact (by rw [hs]; norm_num) hs]
  show (pick_best p p [[]]).1 = some [p, p]
  rw [pick_best, List.foldl_cons, List.foldl_nil, pb_step]
  have hpl : path_length (p :: ([] : List (Pt β)) ++ [p]) = 0 := by
    show path_length [p, p] = 0
    simp [path_length, hypot, sub_self]
  rw [if_pos (by rw [hpl]; norm_num)]
  rfl

/-- Two points already in descending-x order with a finite distance: the
exhaustive branch returns them unchanged. -/
theorem opt_pair {p q : Pt β} (hx : xc q ≤ xc p)
    (hlt : hypot (xc q - xc p) (yc q - yc p) < 1e10) :
    optimize_order [p, q] = some [p, q] := by
  have hs : sortWE [p, q] = [p, q] := by
    show List.insertionSort wle [p, q] = [p, q]
    rw [List.insertionSort, List.insertionSort, List.insertionSort, List.orderedInsert,
      List.orderedInsert]
    rw [if_pos (show wle p q from hx)]
  rw [optimize_order_eq_exact (by rw [hs]; norm_num) hs]
  show (pick_best p q [[]]).1 = some [p, q]
  rw [pick_best, List.foldl_cons, List.foldl_nil, pb_step]
  have hpl : path_length (p :: ([] : List (Pt β)) ++ [q]) =
      hypot (xc q - xc p) (yc q - yc p) := by
    show path_length [p, q] = _
    simp [path_length]
  rw [if_pos (by rw [hpl]; exact hlt)]
  rfl

/-- Permutation property of optimize_order for inputs with at least two
elements (bounded-length version for the induction). -/
theorem opt_perm_aux (n : ℕ) :
    ∀ (l out : List (Pt β)), l.length ≤ n → 2 ≤ l.length →
      optimize_order l = some out → out ~ l := by
  induction n with
  | zero => intro l out h1 h2 _; omega
  | succ n ih =>
    intro l out hlen h2 hout
    by_cases hbig : 10 < (sortWE l).length
    · rw [optimize_order_eq_split hbig] at hout
      obtain ⟨ra, hra, hmap⟩ := Option.bind_eq_some.mp hout
      obtain ⟨rb, hrb, rfl⟩ := Option.map_eq_some'.mp hmap
      have hslen : (sortWE l).length = l.length := length_sortWE l
      have h11 : 11 ≤ l.length := by omega
      have hta : ((sortWE l).take ((sortWE l).length / 2)).length = (sortWE l).length / 2 := by
        rw [List.length_take]; omega
      have htb : ((sortWE l).drop ((sortWE l).length / 2)).length =
          (sortWE l).length - (sortWE l).length / 2 := by
        rw [List.length_drop]
      have hra' : ra ~ (sortWE l).take ((sortWE l).length / 2) :=
        ih _ ra (by omega) (by omega) hra
      have hrb' : rb ~ (sortWE l).drop ((sortWE l).length / 2) :=
        ih _ rb (by omega) (by omega) hrb
      calc ra ++ rb
          ~ (sortWE l).take ((sortWE l).length / 2) ++
              (sortWE l).drop ((sortWE l).length / 2) := hra'.append hrb'
        _ = sortWE l := List.take_append_drop _ _
        _ ~ l := sortWE_perm l
    · push_neg at hbig
      have hne : sortWE l ≠ [] := by
        intro hc
        have := length_sortWE l
        rw [hc] at this
        simp at this
        omega
      obtain ⟨s0, rest, hs⟩ := List.exists_cons_of_ne_nil hne
      rw [optimize_order_eq_exact hbig hs] at hout
      obtain ⟨mid, hmid, rfl, -, -⟩ := pick_best_spec hout
      have hrest_ne : rest ≠ [] := by
        intro hc
        have := length_sortWE l
        rw [hs, hc] at this
        simp at this
        omega
      have hmid' : mid ~ rest.dropLast := lexPerms_sound hmid
      have hlast : rest.getLastD s0 = rest.getLast hrest_ne := by
        rw [List.getLastD_eq_getLast? s0 rest, List.getLast?_eq_getLast rest hrest_ne]
        rfl
      calc s0 :: mid ++ [rest.getLastD s0]
          ~ s0 :: rest.dropLast ++ [rest.getLastD s0] :=
            ((hmid'.append_right _).cons _)
        _ = s0 :: rest := by
            rw [hlast, List.cons_append, List.dropLast_append_getLast hrest_ne]
        _ = sortWE l := hs.symm
        _ ~ l := sortWE_perm l

/-- The output of optimize_order, when it is a list and the input has at
least two elements, is a permutation of the input. -/
theorem opt_perm {l out : List (Pt β)} (h2 : 2 ≤ l.length)
    (hout : optimize_order l = some out) : out ~ l :=
  opt_perm_aux l.length l out le_rfl h2 hout

/-- Endpoint preservation (bounded-length version for the induction): the
head and last of any returned list equal the head and last of the sorted
input. -/
theorem opt_head_last_aux (n : ℕ) :
    ∀ (l out : List (Pt β)), l.length ≤ n →
      optimize_order l = some out →
      out.head? = (sortWE l).head? ∧ out.getLast? = (sortWE l).getLast? := by
  induction n with
  | zero =>
    intro l out h1 hout
    have : l = [] := by
      cases l with
      | nil => rfl
      | cons x xs => simp at h1
    subst this
    rw [optimize_order_nil] at hout
    exact absurd hout (by simp)
  | succ n ih =>
    intro l out hlen hout
    by_cases hbig : 10 < (sortWE l).length
    · rw [optimize_order_eq_split hbig] at hout
      obtain ⟨ra, hra, hmap⟩ := Option.bind_eq_some.mp hout
      obtain ⟨rb, hrb, rfl⟩ := Option.map_eq_some'.mp hmap
      have hslen : (sortWE l).length = l.length := length_sortWE l
      have h11 : 11 ≤ l.length := by omega
      have hta : ((sortWE l).take ((sortWE l).length / 2)).length = (sortWE l).length / 2 := by
        rw [List.length_take]; omega
      have htb : ((sortWE l).drop ((sortWE l).length / 2)).length =
          (sortWE l).length - (sortWE l).length / 2 := by
        rw [List.length_drop]
      have iha := ih _ ra (by omega) hra
      have ihb := ih _ rb (by omega) hrb
      have hsorta : sortWE ((sortWE l).take ((sortWE l).length / 2)) =
          (sortWE l).take ((sortWE l).length / 2) :=
        sortWE_of_sorted ((sortWE_sorted l).sublist (List.take_sublist _ _))
      have hsortb : sortWE ((sortWE l).drop ((sortWE l).length / 2)) =
          (sortWE l).drop ((sortWE l).length / 2) :=
        sortWE_of_sorted ((sortWE_sorted l).sublist (List.drop_sublist _ _))
      rw [hsorta] at iha
      rw [hsortb] at ihb
      have hane : ra ≠ [] := by
        intro hc
        rw [hc] at iha
        have h1 := iha.1
        obtain ⟨k, hk⟩ : ∃ k, (sortWE l).length / 2 = k + 1 := ⟨(sortWE l).length / 2 - 1, by omega⟩
        rw [hk, head?_take_succ] at h1
        obtain ⟨y, ys, hys⟩ := List.exists_cons_of_ne_nil
          (show sortWE l ≠ [] by intro hc2; rw [hc2] at hslen; simp at hslen; omega)
        rw [hys] at h1
        exact absurd h1.symm (by simp)
      have hbne : rb ≠ [] := by
        intro hc
        rw [hc] at ihb
        have h1 := ihb.2
        rw [getLast?_drop_of_lt (by omega)] at h1
        obtain ⟨y, ys, hys⟩ := List.exists_cons_of_ne_nil
          (show sortWE l ≠ [] by intro hc2; rw [hc2] at hslen; simp at hslen; omega)
        rw [hys, List.getLast?_cons] at h1
        exact absurd h1.symm (by simp)
      constructor
      · rw [head?_append_left hane, iha.1]
        obtain ⟨k, hk⟩ : ∃ k, (sortWE l).length / 2 = k + 1 := ⟨(sortWE l).length / 2 - 1, by omega⟩
        rw [hk, head?_take_succ]
      · rw [List.getLast?_append_of_ne_nil _ hbne, ihb.2]
        rw [getLast?_drop_of_lt (by omega)]
    · push_neg at hbig
      have hne : sortWE l ≠ [] := by
        intro hc
        rw [optimize_order] at hout
        rw [dif_neg (show ¬ OPTIMIZATION_SUBDIVIDE_LIMIT < (sortWE l).length by
          simp only [OPTIMIZATION_SUBDIVIDE_LIMIT]; omega)] at hout
        rw [hc] at hout
        exact absurd hout (by simp)
      obtain ⟨s0, rest, hs⟩ := List.exists_cons_of_ne_nil hne
      rw [optimize_order_eq_exact hbig hs] at hout
      obtain ⟨mid, -, rfl, -, -⟩ := pick_best_spec hout
      constructor
      · rw [hs]
        rfl
      · show ((s0 :: mid) ++ [rest.getLastD s0]).getLast? = _
        rw [List.getLast?_concat, hs, List.getLast?_cons, List.getLastD_eq_getLast? s0 rest]

/-- Endpoint preservation of optimize_order. -/
theorem opt_head_last {l out : List (Pt β)} (hout : optimize_order l = some out) :
    out.head? = (sortWE l).head? ∧ out.getLast? = (sortWE l).getLast? :=
  opt_head_last_aux l.length l out le_rfl hout

end OptimizeOrderLemmas

section ConcreteHelpers

open List

/-- Evaluating hypot when the sum of squares is a known square. -/
theorem hypot_eval {dx dy c : ℝ} (h : dx ^ 2 + dy ^ 2 = c ^ 2) (hc : 0 ≤ c) :
    hypot dx dy = c := by
  rw [hypot, h, Real.sqrt_sq hc]

/-- A successful optimize_order run needs a nonempty input. -/
theorem opt_some_sort_ne_nil {l out : List (Pt β)} (hout : optimize_order l = some out) :
    sortWE l ≠ [] := by
  intro hc
  have hlen := length_sortWE l
  rw [hc] at hlen
  have : l = [] := List.length_eq_zero.mp hlen.symm
  subst this
  rw [optimize_order_nil] at hout
  exact absurd hout (by simp)

/-- Concrete payload standing for the description-and-body part of a
located tuple in concrete instances. -/
abbrev PL : Type := String × ℤ

/-- Concrete located tuple for instances. -/
def mkPt (x y : ℝ) (s : String) (n : ℤ) : Pt PL := ((x, y), (s, n))

end ConcreteHelpers

section Claims_C1_C2_C4_C5

open List

/-- C1 as stated is false: on the singleton input the exhaustive branch
builds the candidate [located[0]] + [] + [located[-1]] from the same
single element, so the returned list holds the point twice and is not a
permutation of the input. -/
theorem claim_C1_counterexample :
    optimize_order [mkPt 0 0 "sun" 0] = some [mkPt 0 0 "sun" 0, mkPt 0 0 "sun" 0] ∧
    ¬ ([mkPt 0 0 "sun" 0, mkPt 0 0 "sun" 0] ~ [mkPt 0 0 "sun" 0]) :=
  ⟨opt_singleton _, fun h => by simpa using h.length_eq⟩

/-- C1 amended: for every input with at least two elements, any list
optimize_order returns is a permutation of the input - no duplication, no
loss. -/
theorem claim_C1_permutation {l out : List (Pt β)} (h2 : 2 ≤ l.length)
    (hout : optimize_order l = some out) : out ~ l :=
  opt_perm h2 hout

/-- C1 witness: the amended permutation theorem at a concrete two-element
input. -/
theorem claim_C1_witness :
    optimize_order [mkPt 1 0 "a" 1, mkPt 0 0 "b" 2] =
      some [mkPt 1 0 "a" 1, mkPt 0 0 "b" 2] ∧
    [mkPt 1 0 "a" 1, mkPt 0 0 "b" 2] ~ [mkPt 1 0 "a" 1, mkPt 0 0 "b" 2] := by
  have hpair : optimize_order [mkPt 1 0 "a" 1, mkPt 0 0 "b" 2] =
      some [mkPt 1 0 "a" 1, mkPt 0 0 "b" 2] := by
    refine opt_pair (by norm_num [wle, xc, mkPt]) ?_
    rw [hypot_eval (c := 1) (by norm_num [xc, yc, mkPt]) (by norm_num)]
    norm_num
  exact ⟨hpair, claim_C1_permutation (by norm_num) hpair⟩

/-- C4 is right about the intent and wrong about the code: the empty
input raises IndexError (modelled none) instead of returning an empty
list, and a singleton input returns the point duplicated instead of
unchanged. -/
theorem claim_C4_code_bug :
    optimize_order ([] : List (Pt PL)) = none ∧
    optimize_order [mkPt 2 3 "moon" 1] = some [mkPt 2 3 "moon" 1, mkPt 2 3 "moon" 1] ∧
    [mkPt 2 3 "moon" 1, mkPt 2 3 "moon" 1] ≠ [mkPt 2 3 "moon" 1] :=
  ⟨optimize_order_nil, opt_singleton _,
   fun h => by simpa using congrArg List.length h⟩

/-- C5: whenever optimize_order returns a list, its first and last
elements are the first and last elements of the input sorted descending by
x. -/
theorem claim_C5_endpoints {l out : List (Pt β)} (hout : optimize_order l = some out) :
    out.head? = (sortWE l).head? ∧ out.getLast? = (sortWE l).getLast? :=
  opt_head_last hout

/-- C5 witness: the endpoint theorem at a concrete two-element input. -/
theorem claim_C5_witness :
    optimize_order [mkPt 4 1 "c" 3, mkPt 2 1 "d" 4] =
      some [mkPt 4 1 "c" 3, mkPt 2 1 "d" 4] ∧
    [mkPt 4 1 "c" 3, mkPt 2 1 "d" 4].head? =
      (sortWE [mkPt 4 1 "c" 3, mkPt 2 1 "d" 4]).head? ∧
    [mkPt 4 1 "c" 3, mkPt 2 1 "d" 4].getLast? =
      (sortWE [mkPt 4 1 "c" 3, mkPt 2 1 "d" 4]).getLast? := by
  have hpair : optimize_order [mkPt 4 1 "c" 3, mkPt 2 1 "d" 4] =
      some [mkPt 4 1 "c" 3, mkPt 2 1 "d" 4] := by
    refine opt_pair (by norm_num [wle, xc, mkPt]) ?_
    rw [hypot_eval (c := 2) (by norm_num [xc, yc, mkPt]) (by norm_num)]
    norm_num
  exact ⟨hpair, (claim_C5_endpoints hpair).1, (claim_C5_endpoints hpair).2⟩

/-- C2 as stated is false: a two-element input (size at most the
threshold) whose single candidate tour is 12e9 long exceeds the initial
best length 1e10, so the fold keeps best_candidate = None and the function
returns none rather than a list. -/
theorem claim_C2_counterexample :
    ([mkPt 6000000000 0 "east" 0, mkPt (-6000000000) 0 "west" 1] : List (Pt PL)).length ≤ 10 ∧
    optimize_order [mkPt 6000000000 0 "east" 0, mkPt (-6000000000) 0 "west" 1] = none := by
  refine ⟨by norm_num, ?_⟩
  have hs : sortWE [mkPt 6000000000 0 "east" 0, mkPt (-6000000000) 0 "west" 1] =
      [mkPt 6000000000 0 "east" 0, mkPt (-6000000000) 0 "west" 1] := by
    show List.insertionSort wle _ = _
    rw [List.insertionSort, List.insertionSort, List.insertionSort, List.orderedInsert,
      List.orderedInsert]
    rw [if_pos (show wle (mkPt 6000000000 0 "east" 0) (mkPt (-6000000000) 0 "west" 1) by
      norm_num [wle, xc, mkPt])]
  rw [optimize_order_eq_exact (by rw [hs]; norm_num) hs]
  show (pick_best (mkPt 6000000000 0 "east" 0) (mkPt (-6000000000) 0 "west" 1) [[]]).1 = none
  rw [pick_best, List.foldl_cons, List.foldl_nil, pb_step]
  have hpl : path_length ((mkPt 6000000000 0 "east" 0) :: ([] : List (Pt PL)) ++
      [mkPt (-6000000000) 0 "west" 1]) = 12000000000 := by
    show path_length [mkPt 6000000000 0 "east" 0, mkPt (-6000000000) 0 "west" 1] = _
    have h1 : path_length [mkPt 6000000000 0 "east" 0, mkPt (-6000000000) 0 "west" 1] =
        hypot (xc (mkPt (-6000000000) 0 "west" 1) - xc (mkPt 6000000000 0 "east" 0))
          (yc (mkPt (-6000000000) 0 "west" 1) - yc (mkPt 6000000000 0 "east" 0)) := by
      simp [path_length]
    rw [h1, hypot_eval (c := 12000000000) (by norm_num [xc, yc, mkPt]) (by norm_num)]
  rw [if_neg (by rw [hpl]; norm_num)]

/-- C2 amended: for every input of size at most the threshold for which
optimize_order returns a list, the returned list is first element, then an
interior, then last element; first and last are those of the input sorted
descending by x; the interior is a permutation of the remaining elements
whose total path length is minimal among all permutations of them between
the fixed endpoints; and the total path length is at most that of the
descending-by-x sorted order. -/
theorem claim_C2_exact {l out : List (Pt β)} (hlen : l.length ≤ 10)
    (hout : optimize_order l = some out) :
    ∃ s0 mid lastE, out = (s0 :: mid) ++ [lastE] ∧
      (sortWE l).head? = some s0 ∧ (sortWE l).getLast? = some lastE ∧
      mid ~ ((sortWE l).drop 1).dropLast ∧
      (∀ mid', mid' ~ ((sortWE l).drop 1).dropLast →
        path_length out ≤ path_length ((s0 :: mid') ++ [lastE])) ∧
      path_length out ≤ path_length (sortWE l) := by
  have hb : (sortWE l).length ≤ 10 := by rw [length_sortWE]; exact hlen
  obtain ⟨s0, rest, hs⟩ := List.exists_cons_of_ne_nil (opt_some_sort_ne_nil hout)
  rw [optimize_order_eq_exact hb hs] at hout
  obtain ⟨mid, hmid, rfl, -, hmin⟩ := pick_best_spec hout
  have hinterior : ((sortWE l).drop 1).dropLast = rest.dropLast := by rw [hs]; rfl
  refine ⟨s0, mid, rest.getLastD s0, rfl, by rw [hs]; rfl, ?_, ?_, ?_, ?_⟩
  · rw [hs, List.getLast?_cons, List.getLastD_eq_getLast? s0 rest]
  · rw [hinterior]
    exact lexPerms_sound hmid
  · intro mid' hmid'
    rw [hinterior] at hmid'
    exact hmin mid' (lexPerms_complete hmid')
  · rcases eq_or_ne rest [] with rfl | hrest_ne
    · have hmid0 : mid = [] := List.perm_nil.mp (lexPerms_sound hmid)
      subst hmid0
      rw [hs]
      show path_length [s0, s0] ≤ path_length [s0]
      simp [path_length, hypot, sub_self]
    · have hlast : rest.getLastD s0 = rest.getLast hrest_ne := by
        rw [List.getLastD_eq_getLast? s0 rest, List.getLast?_eq_getLast rest hrest_ne]
        rfl
      have hsdecomp : (s0 :: rest.dropLast) ++ [rest.getLastD s0] = sortWE l := by
        rw [hlast, List.cons_append, List.dropLast_append_getLast hrest_ne, hs]
      have := hmin rest.dropLast (lexPerms_complete (List.Perm.refl _))
      rw [hsdecomp] at this
      exact this

/-- C2 witness: the amended exhaustive-branch theorem at a concrete
two-element input. -/
theorem claim_C2_witness :
    ([mkPt 9 0 "m31" 5, mkPt 7 0 "m32" 6] : List (Pt PL)).length ≤ 10 ∧
    ∃ s0 mid lastE,
      ([mkPt 9 0 "m31" 5, mkPt 7 0 "m32" 6] : List (Pt PL)) = (s0 :: mid) ++ [lastE] ∧
      (sortWE [mkPt 9 0 "m31" 5, mkPt 7 0 "m32" 6]).head? = some s0 ∧
      (sortWE [mkPt 9 0 "m31" 5, mkPt 7 0 "m32" 6]).getLast? = some lastE ∧
      mid ~ ((sortWE [mkPt 9 0 "m31" 5, mkPt 7 0 "m32" 6]).drop 1).dropLast ∧
      (∀ mid', mid' ~ ((sortWE [mkPt 9 0 "m31" 5, mkPt 7 0 "m32" 6]).drop 1).dropLast →
        path_length [mkPt 9 0 "m31" 5, mkPt 7 0 "m32" 6] ≤
          path_length ((s0 :: mid') ++ [lastE])) ∧
      path_length [mkPt 9 0 "m31" 5, mkPt 7 0 "m32" 6] ≤
        path_length (sortWE [mkPt 9 0 "m31" 5, mkPt 7 0 "m32" 6]) := by
  have hpair : optimize_order [mkPt 9 0 "m31" 5, mkPt 7 0 "m32" 6] =
      some [mkPt 9 0 "m31" 5, mkPt 7 0 "m32" 6] := by
    refine opt_pair (by norm_num [wle, xc, mkPt]) ?_
    rw [hypot_eval (c := 2) (by norm_num [xc, yc, mkPt]) (by norm_num)]
    norm_num
  exact ⟨by norm_num, claim_C2_exact (by norm_num) hpair⟩

end Claims_C1_C2_C4_C5


section Claim_C3

open List

/-- The exhaustive branch of optimize_order_spec coincides with
optimize_order. -/
theorem optimize_order_spec_eq_exact {l : List (Pt β)} (h : (sortWE l).length ≤ 10) :
    optimize_order_spec l = optimize_order l := by
  rw [optimize_order_spec, optimize_order]
  rw [dif_neg (show ¬ OPTIMIZATION_SUBDIVIDE_LIMIT < (sortWE l).length by
    simp only [OPTIMIZATION_SUBDIVIDE_LIMIT]; omega)]
  rw [dif_neg (show ¬ OPTIMIZATION_SUBDIVIDE_LIMIT < (sortWE l).length by
    simp only [OPTIMIZATION_SUBDIVIDE_LIMIT]; omega)]

/-- Unfolding of the long-list branch of the spec-described algorithm. -/
theorem optimize_order_spec_eq_split {l : List (Pt β)} (h : 10 < (sortWE l).length) :
    optimize_order_spec l =
      (optimize_order_spec ((sortWE l).take ((sortWE l).length / 2 + 1))).bind fun ra =>
        (optimize_order_spec ((sortWE l).drop ((sortWE l).length / 2))).map fun rb =>
          ra.dropLast ++ rb := by
  rw [optimize_order_spec]
  rw [dif_pos (show OPTIMIZATION_SUBDIVIDE_LIMIT < (sortWE l).length from h)]

/-- Point 0 (descending-x position 0) of the C3 instance. -/
noncomputable def t0 : Pt PL := (((527/625), (336/625)), ("t0", 0))

/-- Point 1 (descending-x position 1) of the C3 instance. -/
noncomputable def t1 : Pt PL := (((161/289), (240/289)), ("t1", 1))

/-- Point 2 (descending-x position 2) of the C3 instance. -/
noncomputable def t2 : Pt PL := (((7/25), (24/25)), ("t2", 2))

/-- Point 3 (descending-x position 3) of the C3 instance. -/
noncomputable def t3 : Pt PL := (((41/841), (840/841)), ("t3", 3))

/-- Point 4 (descending-x position 4) of the C3 instance. -/
noncomputable def t4 : Pt PL := ((0, 0), ("t4", 4))

/-- Point 5 (descending-x position 5) of the C3 instance. -/
noncomputable def t5 : Pt PL := (((-(41/841)), (840/841)), ("t5", 5))

/-- Point 6 (descending-x position 6) of the C3 instance. -/
noncomputable def t6 : Pt PL := (((-(7/25)), (24/25)), ("t6", 6))

/-- Point 7 (descending-x position 7) of the C3 instance. -/
noncomputable def t7 : Pt PL := (((-(161/289)), (240/289)), ("t7", 7))

/-- Point 8 (descending-x position 8) of the C3 instance. -/
noncomputable def t8 : Pt PL := (((-(119/169)), (120/169)), ("t8", 8))

/-- Point 9 (descending-x position 9) of the C3 instance. -/
noncomputable def t9 : Pt PL := (((-(527/625)), (336/625)), ("t9", 9))

/-- Point 10 (descending-x position 10) of the C3 instance. -/
noncomputable def t10 : Pt PL := (((-(1519/1681)), (720/1681)), ("t10", 10))

theorem hyp_0_1 : hypot (xc t1 - xc t0) (yc t1 - yc t0) = ((174/425) : ℝ) :=
  hypot_eval (by norm_num [xc, yc, t0, t1]) (by norm_num)

theorem hyp_0_2 : hypot (xc t2 - xc t0) (yc t2 - yc t0) = ((88/125) : ℝ) :=
  hypot_eval (by norm_num [xc, yc, t0, t2]) (by norm_num)

theorem hyp_0_3 : hypot (xc t3 - xc t0) (yc t3 - yc t0) = ((666/725) : ℝ) :=
  hypot_eval (by norm_num [xc, yc, t0, t3]) (by norm_num)

theorem hyp_0_4 : hypot (xc t4 - xc t0) (yc t4 - yc t0) = (1 : ℝ) :=
  hypot_eval (by norm_num [xc, yc, t0, t4]) (by norm_num)

theorem hyp_1_2 : hypot (xc t2 - xc t1) (yc t2 - yc t1) = ((26/85) : ℝ) :=
  hypot_eval (by norm_num [xc, yc, t1, t2]) (by norm_num)

theorem hyp_1_3 : hypot (xc t3 - xc t1) (yc t3 - yc t1) = ((264/493) : ℝ) :=
  hypot_eval (by norm_num [xc, yc, t1, t3]) (by norm_num)

theorem hyp_1_4 : hypot (xc t4 - xc t1) (yc t4 - yc t1) = (1 : ℝ) :=
  hypot_eval (by norm_num [xc, yc, t1, t4]) (by norm_num)

theorem hyp_1_5 : hypot (xc t5 - xc t1) (yc t5 - yc t1) = ((310/493) : ℝ) :=
  hypot_eval (by norm_num [xc, yc, t1, t5]) (by norm_num)

theorem hyp_2_1 : hypot (xc t1 - xc t2) (yc t1 - yc t2) = ((26/85) : ℝ) :=
  hypot_eval (by norm_num [xc, yc, t2, t1]) (by norm_num)

theorem hyp_2_3 : hypot (xc t3 - xc t2) (yc t3 - yc t2) = ((34/145) : ℝ) :=
  hypot_eval (by norm_num [xc, yc, t2, t3]) (by norm_num)

theorem hyp_2_4 : hypot (xc t4 - xc t2) (yc t4 - yc t2) = (1 : ℝ) :=
  hypot_eval (by norm_num [xc, yc, t2, t4]) (by norm_num)

theorem hyp_2_5 : hypot (xc t5 - xc t2) (yc t5 - yc t2) = ((48/145) : ℝ) :=
  hypot_eval (by norm_num [xc, yc, t2, t5]) (by norm_num)

theorem hyp_3_1 : hypot (xc t1 - xc t3) (yc t1 - yc t3) = ((264/493) : ℝ) :=
  hypot_eval (by norm_num [xc, yc, t3, t1]) (by norm_num)

theorem hyp_3_2 : hypot (xc t2 - xc t3) (yc t2 - yc t3) = ((34/145) : ℝ) :=
  hypot_eval (by norm_num [xc, yc, t3, t2]) (by norm_num)

theorem hyp_3_4 : hypot (xc t4 - xc t3) (yc t4 - yc t3) = (1 : ℝ) :=
  hypot_eval (by norm_num [xc, yc, t3, t4]) (by norm_num)

theorem hyp_3_5 : hypot (xc t5 - xc t3) (yc t5 - yc t3) = ((82/841) : ℝ) :=
  hypot_eval (by norm_num [xc, yc, t3, t5]) (by norm_num)

theorem hyp_4_1 : hypot (xc t1 - xc t4) (yc t1 - yc t4) = (1 : ℝ) :=
  hypot_eval (by norm_num [xc, yc, t4, t1]) (by norm_num)

theorem hyp_4_2 : hypot (xc t2 - xc t4) (yc t2 - yc t4) = (1 : ℝ) :=
  hypot_eval (by norm_num [xc, yc, t4, t2]) (by norm_num)

theorem hyp_4_3 : hypot (xc t3 - xc t4) (yc t3 - yc t4) = (1 : ℝ) :=
  hypot_eval (by norm_num [xc, yc, t4, t3]) (by norm_num)

theorem hyp_4_5 : hypot (xc t5 - xc t4) (yc t5 - yc t4) = (1 : ℝ) :=
  hypot_eval (by norm_num [xc, yc, t4, t5]) (by norm_num)

theorem hyp_5_6 : hypot (xc t6 - xc t5) (yc t6 - yc t5) = ((34/145) : ℝ) :=
  hypot_eval (by norm_num [xc, yc, t5, t6]) (by norm_num)

theorem hyp_5_7 : hypot (xc t7 - xc t5) (yc t7 - yc t5) = ((264/493) : ℝ) :=
  hypot_eval (by norm_num [xc, yc, t5, t7]) (by norm_num)

theorem hyp_5_8 : hypot (xc t8 - xc t5) (yc t8 - yc t5) = ((270/377) : ℝ) :=
  hypot_eval (by norm_num [xc, yc, t5, t8]) (by norm_num)

theorem hyp_5_9 : hypot (xc t9 - xc t5) (yc t9 - yc t5) = ((666/725) : ℝ) :=
  hypot_eval (by norm_num [xc, yc, t5, t9]) (by norm_num)

theorem hyp_6_7 : hypot (xc t7 - xc t6) (yc t7 - yc t6) = ((26/85) : ℝ) :=
  hypot_eval (by norm_num [xc, yc, t6, t7]) (by norm_num)

theorem hyp_6_8 : hypot (xc t8 - xc t6) (yc t8 - yc t6) = ((32/65) : ℝ) :=
  hypot_eval (by norm_num [xc, yc, t6, t8]) (by norm_num)

theorem hyp_6_9 : hypot (xc t9 - xc t6) (yc t9 - yc t6) = ((88/125) : ℝ) :=
  hypot_eval (by norm_num [xc, yc, t6, t9]) (by norm_num)

theorem hyp_6_10 : hypot (xc t10 - xc t6) (yc t10 - yc t6) = ((168/205) : ℝ) :=
  hypot_eval (by norm_num [xc, yc, t6, t10]) (by norm_num)

theorem hyp_7_6 : hypot (xc t6 - xc t7) (yc t6 - yc t7) = ((26/85) : ℝ) :=
  hypot_eval (by norm_num [xc, yc, t7, t6]) (by norm_num)

theorem hyp_7_8 : hypot (xc t8 - xc t7) (yc t8 - yc t7) = ((42/221) : ℝ) :=
  hypot_eval (by norm_num [xc, yc, t7, t8]) (by norm_num)

theorem hyp_7_9 : hypot (xc t9 - xc t7) (yc t9 - yc t7) = ((174/425) : ℝ) :=
  hypot_eval (by norm_num [xc, yc, t7, t9]) (by norm_num)

theorem hyp_7_10 : hypot (xc t10 - xc t7) (yc t10 - yc t7) = ((370/697) : ℝ) :=
  hypot_eval (by norm_num [xc, yc, t7, t10]) (by norm_num)

theorem hyp_8_6 : hypot (xc t6 - xc t8) (yc t6 - yc t8) = ((32/65) : ℝ) :=
  hypot_eval (by norm_num [xc, yc, t8, t6]) (by norm_num)

theorem hyp_8_7 : hypot (xc t7 - xc t8) (yc t7 - yc t8) = ((42/221) : ℝ) :=
  hypot_eval (by norm_num [xc, yc, t8, t7]) (by norm_num)

theorem hyp_8_9 : hypot (xc t9 - xc t8) (yc t9 - yc t8) = ((72/325) : ℝ) :=
  hypot_eval (by norm_num [xc, yc, t8, t9]) (by norm_num)

theorem hyp_8_10 : hypot (xc t10 - xc t8) (yc t10 - yc t8) = ((184/533) : ℝ) :=
  hypot_eval (by norm_num [xc, yc, t8, t10]) (by norm_num)

theorem hyp_9_6 : hypot (xc t6 - xc t9) (yc t6 - yc t9) = ((88/125) : ℝ) :=
  hypot_eval (by norm_num [xc, yc, t9, t6]) (by norm_num)

theorem hyp_9_7 : hypot (xc t7 - xc t9) (yc t7 - yc t9) = ((174/425) : ℝ) :=
  hypot_eval (by norm_num [xc, yc, t9, t7]) (by norm_num)

theorem hyp_9_8 : hypot (xc t8 - xc t9) (yc t8 - yc t9) = ((72/325) : ℝ) :=
  hypot_eval (by norm_num [xc, yc, t9, t8]) (by norm_num)

theorem hyp_9_10 : hypot (xc t10 - xc t9) (yc t10 - yc t9) = ((128/1025) : ℝ) :=
  hypot_eval (by norm_num [xc, yc, t9, t10]) (by norm_num)

theorem t11_sorted : ([t0, t1, t2, t3, t4, t5, t6, t7, t8, t9, t10] : List (Pt PL)).Sorted wle := by
  simp only [List.sorted_cons, List.mem_cons, List.mem_singleton, List.sorted_nil,
    List.not_mem_nil, forall_eq_or_imp, forall_eq, and_true, wle, xc]
  norm_num [t0, t1, t2, t3, t4, t5, t6, t7, t8, t9, t10]

theorem tA_sorted : ([t0, t1, t2, t3, t4] : List (Pt PL)).Sorted wle := by
  simp only [List.sorted_cons, List.mem_cons, List.mem_singleton, List.sorted_nil,
    List.not_mem_nil, forall_eq_or_imp, forall_eq, and_true, wle, xc]
  norm_num [t0, t1, t2, t3, t4]

theorem tB_sorted : ([t5, t6, t7, t8, t9, t10] : List (Pt PL)).Sorted wle := by
  simp only [List.sorted_cons, List.mem_cons, List.mem_singleton, List.sorted_nil,
    List.not_mem_nil, forall_eq_or_imp, forall_eq, and_true, wle, xc]
  norm_num [t5, t6, t7, t8, t9, t10]

theorem tC_sorted : ([t0, t1, t2, t3, t4, t5] : List (Pt PL)).Sorted wle := by
  simp only [List.sorted_cons, List.mem_cons, List.mem_singleton, List.sorted_nil,
    List.not_mem_nil, forall_eq_or_imp, forall_eq, and_true, wle, xc]
  norm_num [t0, t1, t2, t3, t4, t5]

theorem opt_tA : optimize_order ([t0, t1, t2, t3, t4] : List (Pt PL)) = some [t0, t1, t2, t3, t4] := by
  have hs : sortWE ([t0, t1, t2, t3, t4] : List (Pt PL)) = [t0, t1, t2, t3, t4] := sortWE_of_sorted tA_sorted
  rw [optimize_order_eq_exact (by rw [hs]; norm_num) hs]
  show (pick_best t0 t4 (lexPerms [t1, t2, t3])).1 = some [t0, t1, t2, t3, t4]
  rw [show lexPerms ([t1, t2, t3] : List (Pt PL)) = [[t1, t2, t3], [t1, t3, t2], [t2, t1, t3], [t2, t3, t1], [t3, t1, t2], [t3, t2, t1]] from rfl]
  rw [pick_best]
  norm_num [List.foldl_cons, List.foldl_nil, pb_step, List.cons_append,
    List.nil_append, path_length, hyp_0_1, hyp_0_2, hyp_0_3, hyp_0_4, hyp_1_2, hyp_1_3, hyp_1_4, hyp_1_5, hyp_2_1, hyp_2_3, hyp_2_4, hyp_2_5, hyp_3_1, hyp_3_2, hyp_3_4, hyp_3_5, hyp_4_1, hyp_4_2, hyp_4_3, hyp_4_5, hyp_5_6, hyp_5_7, hyp_5_8, hyp_5_9, hyp_6_7, hyp_6_8, hyp_6_9, hyp_6_10, hyp_7_6, hyp_7_8, hyp_7_9, hyp_7_10, hyp_8_6, hyp_8_7, hyp_8_9, hyp_8_10, hyp_9_6, hyp_9_7, hyp_9_8, hyp_9_10]

theorem opt_tB : optimize_order ([t5, t6, t7, t8, t9, t10] : List (Pt PL)) = some [t5, t6, t7, t8, t9, t10] := by
  have hs : sortWE ([t5, t6, t7, t8, t9, t10] : List (Pt PL)) = [t5, t6, t7, t8, t9, t10] := sortWE_of_sorted tB_sorted
  rw [optimize_order_eq_exact (by rw [hs]; norm_num) hs]
  show (pick_best t5 t10 (lexPerms [t6, t7, t8, t9])).1 = some [t5, t6, t7, t8, t9, t10]
  rw [show lexPerms ([t6, t7, t8, t9] : List (Pt PL)) = [[t6, t7, t8, t9], [t6, t7, t9, t8], [t6, t8, t7, t9], [t6, t8, t9, t7], [t6, t9, t7, t8], [t6, t9, t8, t7], [t7, t6, t8, t9], [t7, t6, t9, t8], [t7, t8, t6, t9], [t7, t8, t9, t6], [t7, t9, t6, t8], [t7, t9, t8, t6], [t8, t6, t7, t9], [t8, t6, t9, t7], [t8, t7, t6, t9], [t8, t7, t9, t6], [t8, t9, t6, t7], [t8, t9, t7, t6], [t9, t6, t7, t8], [t9, t6, t8, t7], [t9, t7, t6, t8], [t9, t7, t8, t6], [t9, t8, t6, t7], [t9, t8, t7, t6]] from rfl]
  rw [pick_best]
  norm_num [List.foldl_cons, List.foldl_nil, pb_step, List.cons_append,
    List.nil_append, path_length, hyp_0_1, hyp_0_2, hyp_0_3, hyp_0_4, hyp_1_2, hyp_1_3, hyp_1_4, hyp_1_5, hyp_2_1, hyp_2_3, hyp_2_4, hyp_2_5, hyp_3_1, hyp_3_2, hyp_3_4, hyp_3_5, hyp_4_1, hyp_4_2, hyp_4_3, hyp_4_5, hyp_5_6, hyp_5_7, hyp_5_8, hyp_5_9, hyp_6_7, hyp_6_8, hyp_6_9, hyp_6_10, hyp_7_6, hyp_7_8, hyp_7_9, hyp_7_10, hyp_8_6, hyp_8_7, hyp_8_9, hyp_8_10, hyp_9_6, hyp_9_7, hyp_9_8, hyp_9_10]

theorem opt_tC : optimize_order ([t0, t1, t2, t3, t4, t5] : List (Pt PL)) = some [t0, t4, t1, t2, t3, t5] := by
  have hs : sortWE ([t0, t1, t2, t3, t4, t5] : List (Pt PL)) = [t0, t1, t2, t3, t4, t5] := sortWE_of_sorted tC_sorted
  rw [optimize_order_eq_exact (by rw [hs]; norm_num) hs]
  show (pick_best t0 t5 (lexPerms [t1, t2, t3, t4])).1 = some [t0, t4, t1, t2, t3, t5]
  rw [show lexPerms ([t1, t2, t3, t4] : List (Pt PL)) = [[t1, t2, t3, t4], [t1, t2, t4, t3], [t1, t3, t2, t4], [t1, t3, t4, t2], [t1, t4, t2, t3], [t1, t4, t3, t2], [t2, t1, t3, t4], [t2, t1, t4, t3], [t2, t3, t1, t4], [t2, t3, t4, t1], [t2, t4, t1, t3], [t2, t4, t3, t1], [t3, t1, t2, t4], [t3, t1, t4, t2], [t3, t2, t1, t4], [t3, t2, t4, t1], [t3, t4, t1, t2], [t3, t4, t2, t1], [t4, t1, t2, t3], [t4, t1, t3, t2], [t4, t2, t1, t3], [t4, t2, t3, t1], [t4, t3, t1, t2], [t4, t3, t2, t1]] from rfl]
  rw [pick_best]
  norm_num [List.foldl_cons, List.foldl_nil, pb_step, List.cons_append,
    List.nil_append, path_length, hyp_0_1, hyp_0_2, hyp_0_3, hyp_0_4, hyp_1_2, hyp_1_3, hyp_1_4, hyp_1_5, hyp_2_1, hyp_2_3, hyp_2_4, hyp_2_5, hyp_3_1, hyp_3_2, hyp_3_4, hyp_3_5, hyp_4_1, hyp_4_2, hyp_4_3, hyp_4_5, hyp_5_6, hyp_5_7, hyp_5_8, hyp_5_9, hyp_6_7, hyp_6_8, hyp_6_9, hyp_6_10, hyp_7_6, hyp_7_8, hyp_7_9, hyp_7_10, hyp_8_6, hyp_8_7, hyp_8_9, hyp_8_10, hyp_9_6, hyp_9_7, hyp_9_8, hyp_9_10]


/-- What the code computes on the C3 instance: the first half is solved
without the pivot. -/
theorem opt_t11_code :
    optimize_order ([t0, t1, t2, t3, t4, t5, t6, t7, t8, t9, t10] : List (Pt PL)) = some [t0, t1, t2, t3, t4, t5, t6, t7, t8, t9, t10] := by
  have hs : sortWE ([t0, t1, t2, t3, t4, t5, t6, t7, t8, t9, t10] : List (Pt PL)) = [t0, t1, t2, t3, t4, t5, t6, t7, t8, t9, t10] :=
    sortWE_of_sorted t11_sorted
  rw [optimize_order_eq_split (by rw [hs]; norm_num)]
  rw [hs]
  rw [show (([t0, t1, t2, t3, t4, t5, t6, t7, t8, t9, t10] : List (Pt PL)).length / 2) = 5 by norm_num]
  rw [show (([t0, t1, t2, t3, t4, t5, t6, t7, t8, t9, t10] : List (Pt PL)).take 5) = [t0, t1, t2, t3, t4] from rfl]
  rw [show (([t0, t1, t2, t3, t4, t5, t6, t7, t8, t9, t10] : List (Pt PL)).drop 5) = [t5, t6, t7, t8, t9, t10] from rfl]
  rw [opt_tA, opt_tB]
  rfl

/-- What the spec-described algorithm computes on the C3 instance: the
first half including the pivot solves to a different interior order. -/
theorem opt_t11_spec :
    optimize_order_spec ([t0, t1, t2, t3, t4, t5, t6, t7, t8, t9, t10] : List (Pt PL)) = some [t0, t4, t1, t2, t3, t5, t6, t7, t8, t9, t10] := by
  have hs : sortWE ([t0, t1, t2, t3, t4, t5, t6, t7, t8, t9, t10] : List (Pt PL)) = [t0, t1, t2, t3, t4, t5, t6, t7, t8, t9, t10] :=
    sortWE_of_sorted t11_sorted
  rw [optimize_order_spec_eq_split (by rw [hs]; norm_num)]
  rw [hs]
  rw [show (([t0, t1, t2, t3, t4, t5, t6, t7, t8, t9, t10] : List (Pt PL)).length / 2) = 5 by norm_num]
  rw [show (([t0, t1, t2, t3, t4, t5, t6, t7, t8, t9, t10] : List (Pt PL)).take (5 + 1)) = [t0, t1, t2, t3, t4, t5] from rfl]
  rw [show (([t0, t1, t2, t3, t4, t5, t6, t7, t8, t9, t10] : List (Pt PL)).drop 5) = [t5, t6, t7, t8, t9, t10] from rfl]
  rw [optimize_order_spec_eq_exact (by rw [sortWE_of_sorted tC_sorted]; norm_num), opt_tC]
  rw [optimize_order_spec_eq_exact (by rw [sortWE_of_sorted tB_sorted]; norm_num), opt_tB]
  rfl

/-- C3: the claim describes the split as solving the first half with the
pivot included as its fixed last element and dropping the duplicate from
the solved sub-tour; the code instead strips the pivot from the first half
before the recursive call (optimize_order(a[:-1]) with a =
located[:half+1]), contradicting the adjacent comment. On this 11-point
instance (rational points of the unit circle plus its center) the two
procedures return different tours. -/
theorem claim_C3_code_bug :
    optimize_order ([t0, t1, t2, t3, t4, t5, t6, t7, t8, t9, t10] : List (Pt PL)) = some [t0, t1, t2, t3, t4, t5, t6, t7, t8, t9, t10] ∧
    optimize_order_spec ([t0, t1, t2, t3, t4, t5, t6, t7, t8, t9, t10] : List (Pt PL)) = some [t0, t4, t1, t2, t3, t5, t6, t7, t8, t9, t10] ∧
    ([t0, t1, t2, t3, t4, t5, t6, t7, t8, t9, t10] : List (Pt PL)) ≠ [t0, t4, t1, t2, t3, t5, t6, t7, t8, t9, t10] := by
  refine ⟨opt_t11_code, opt_t11_spec, ?_⟩
  intro h
  have h1 : t1 = t4 := by
    have := congrArg (fun l => l.get? 1) h
    simpa using this
  have h2 := congrArg (fun p : Pt PL => xc p) h1
  simp only [xc, t1, t4] at h2
  norm_num at h2

end Claim_C3

section Claim_C6

open List

/-- optimize_order inspects its input only through the sorted list. -/
theorem opt_congr {l₁ l₂ : List (Pt β)} (h : sortWE l₁ = sortWE l₂) :
    optimize_order l₁ = optimize_order l₂ := by
  conv_lhs => rw [optimize_order]
  conv_rhs => rw [optimize_order]
  rw [h]

/-- A duplicated point passes through the exhaustive branch unchanged. -/
theorem opt_dup (p : Pt β) : optimize_order [p, p] = some [p, p] := by
  refine opt_pair le_rfl ?_
  have h : hypot (xc p - xc p) (yc p - yc p) = 0 := by
    simp [hypot, sub_self]
  rw [h]
  norm_num

/-- orderedInsert places the new element before the first entry that
sorts no earlier, keeping everything else in place. -/
theorem orderedInsert_decomp (a : Pt β) (l : List (Pt β)) :
    ∃ u w, List.orderedInsert wle a l = u ++ a :: w ∧ l = u ++ w ∧
      ∀ y ∈ u, ¬ wle a y := by
  induction l with
  | nil => exact ⟨[], [], rfl, rfl, by simp⟩
  | cons y l ih =>
    by_cases h : wle a y
    · refine ⟨[], y :: l, ?_, rfl, by simp⟩
      simp only [List.orderedInsert]
      rw [if_pos h]
      rfl
    · obtain ⟨u, w, h1, h2, h3⟩ := ih
      refine ⟨y :: u, w, ?_, by rw [List.cons_append, ← h2], ?_⟩
      · simp only [List.orderedInsert]
        rw [if_neg h, h1]
        rfl
      · intro z hz
        rcases List.mem_cons.mp hz with rfl | hz
        · exact h
        · exact h3 z hz

/-- orderedInsert into an append whose right part the element precedes. -/
theorem orderedInsert_append_of_le {a : Pt β} {v : List (Pt β)} (u : List (Pt β))
    (hv : ∀ b ∈ v, wle a b) :
    List.orderedInsert wle a (u ++ v) = List.orderedInsert wle a u ++ v := by
  induction u with
  | nil =>
    cases v with
    | nil => rfl
    | cons b v' =>
      show List.orderedInsert wle a (b :: v') = [a] ++ b :: v'
      simp only [List.orderedInsert]
      rw [if_pos (hv b (by simp))]
      rfl
  | cons y u' ih =>
    show List.orderedInsert wle a (y :: (u' ++ v)) = List.orderedInsert wle a (y :: u') ++ v
    by_cases h : wle a y
    · simp only [List.orderedInsert]
      rw [if_pos h, if_pos h]
      rfl
    · simp only [List.orderedInsert]
      rw [if_neg h, if_neg h, ih]
      rfl

/-- Sorting a cons whose head dominates keeps the head in front. -/
theorem sortWE_cons_max {a : Pt β} {l : List (Pt β)} (h : ∀ x ∈ l, wle a x) :
    sortWE (a :: l) = a :: sortWE l := by
  show List.orderedInsert wle a (sortWE l) = a :: sortWE l
  cases hs : sortWE l with
  | nil => rfl
  | cons b m =>
    simp only [List.orderedInsert]
    rw [if_pos (h b ((sortWE_perm l).subset (by rw [hs]; simp)))]

/-- Sorting an append whose left part dominates the right part acts on the
parts separately: exactly the stability needed around a split point. -/
theorem sortWE_append_split {A B : List (Pt β)} (h : ∀ a ∈ A, ∀ b ∈ B, wle a b) :
    sortWE (A ++ B) = sortWE A ++ sortWE B := by
  induction A with
  | nil => simp [sortWE]
  | cons a A' ih =>
    show List.orderedInsert wle a (sortWE (A' ++ B)) =
      List.orderedInsert wle a (sortWE A') ++ sortWE B
    rw [ih (fun x hx => h x (by simp [hx]))]
    exact orderedInsert_append_of_le _
      (fun b hb => h a (by simp) b ((sortWE_perm B).subset hb))

/-- The sorted form of an exhaustive-branch output. -/
theorem sortWE_exact_out {s0 lastE : Pt β} {mid : List (Pt β)}
    (h0 : ∀ x ∈ mid, wle s0 x) (h0e : wle s0 lastE)
    (he : ∀ x ∈ mid, wle x lastE) :
    sortWE ((s0 :: mid) ++ [lastE]) = (s0 :: sortWE mid) ++ [lastE] := by
  show sortWE (s0 :: (mid ++ [lastE])) = s0 :: (sortWE mid ++ [lastE])
  rw [sortWE_cons_max (by
    intro x hx
    rcases List.mem_append.mp hx with hx | hx
    · exact h0 x hx
    · rw [List.mem_singleton.mp hx]; exact h0e)]
  rw [sortWE_append_split (A := mid) (B := [lastE]) (by
    intro a ha b hb
    rw [List.mem_singleton.mp hb]
    exact he a ha)]
  rfl

/-- A fold step never fires on candidates at least as long as the best. -/
theorem pb_foldl_const {f e : Pt β} {perms : List (List (Pt β))}
    {acc : Option (List (Pt β)) × ℝ}
    (h : ∀ q ∈ perms, ¬ path_length (f :: q ++ [e]) < acc.2) :
    perms.foldl (pb_step f e) acc = acc := by
  induction perms with
  | nil => rfl
  | cons p ps ih =>
    rw [List.foldl_cons, pb_step, if_neg (h p (by simp))]
    exact ih (fun q hq => h q (by simp [hq]))

/-- pick_best selects the marked entry of a split whose prefix is strictly
costlier and whose suffix is no cheaper. -/
theorem pick_best_of_split {f e : Pt β} {u v : List (List (Pt β))} {p : List (Pt β)}
    (hlt : path_length (f :: p ++ [e]) < 1e10)
    (hu : ∀ q ∈ u, path_length (f :: p ++ [e]) < path_length (f :: q ++ [e]))
    (hv : ∀ q ∈ v, path_length (f :: p ++ [e]) ≤ path_length (f :: q ++ [e])) :
    (pick_best f e (u ++ p :: v)).1 = some (f :: p ++ [e]) := by
  rw [pick_best, List.foldl_append, List.foldl_cons]
  have hgt : path_length (f :: p ++ [e]) < (u.foldl (pb_step f e) (none, 1e10)).2 := by
    rcases pb_foldl_result f e u (none, 1e10) with heq | ⟨q, hq, heq, _⟩
    · rw [heq]; exact hlt
    · rw [heq]; exact hu q hq
  have hstep : pb_step f e (u.foldl (pb_step f e) (none, 1e10)) p =
      (some (f :: p ++ [e]), path_length (f :: p ++ [e])) := by
    rw [pb_step, if_pos hgt]
  rw [hstep]
  rw [pb_foldl_const (fun q hq => not_lt.mpr (hv q hq))]

/-- Full characterization of the fold: the result is untouched, or it is
the first entry achieving the final minimum, with everything before it
strictly costlier and everything after it no cheaper. -/
theorem pb_foldl_first {f e : Pt β} :
    ∀ (perms : List (List (Pt β))) (acc : Option (List (Pt β)) × ℝ) (c : List (Pt β)),
      (perms.foldl (pb_step f e) acc).1 = some c →
      ((perms.foldl (pb_step f e) acc).2 = acc.2 ∧ acc.1 = some c) ∨
      ∃ u p v, perms = u ++ p :: v ∧ c = f :: p ++ [e] ∧
        path_length (f :: p ++ [e]) < acc.2 ∧
        (∀ q ∈ u, path_length (f :: p ++ [e]) < path_length (f :: q ++ [e])) ∧
        (∀ q ∈ v, path_length (f :: p ++ [e]) ≤ path_length (f :: q ++ [e])) := by
  intro perms
  induction perms with
  | nil => intro acc c h; exact Or.inl ⟨rfl, h⟩
  | cons r rest ih =>
    intro acc c h
    rw [List.foldl_cons] at h
    by_cases hr : path_length (f :: r ++ [e]) < acc.2
    · have hstep : pb_step f e acc r =
          (some (f :: r ++ [e]), path_length (f :: r ++ [e])) := by
        rw [pb_step, if_pos hr]
      rw [hstep] at h
      rcases ih _ c h with ⟨h2, h1⟩ | ⟨u, p, v, hrest, hc, hplt, hu, hv⟩
      · right
        have hc : c = f :: r ++ [e] := by simpa using h1.symm
        refine ⟨[], r, rest, rfl, hc, hr, by simp, ?_⟩
        intro q hq
        have hmin := pb_foldl_min f e rest
          (some (f :: r ++ [e]), path_length (f :: r ++ [e])) q hq
        rw [h2] at hmin
        exact hmin
      · right
        refine ⟨r :: u, p, v, by rw [hrest]; rfl, hc, lt_trans hplt hr, ?_, hv⟩
        intro q hq
        rcases List.mem_cons.mp hq with rfl | hq
        · exact hplt
        · exact hu q hq
    · have hstep : pb_step f e acc r = acc := by rw [pb_step, if_neg hr]
      rw [hstep] at h
      rcases ih _ c h with ⟨h2, h1⟩ | ⟨u, p, v, hrest, hc, hplt, hu, hv⟩
      · left
        constructor
        · rw [List.foldl_cons, hstep, h2]
        · exact h1
      · right
        refine ⟨r :: u, p, v, by rw [hrest]; rfl, hc, hplt, ?_, hv⟩
        intro q hq
        rcases List.mem_cons.mp hq with rfl | hq
        · exact lt_of_lt_of_le hplt (not_lt.mp hr)
        · exact hu q hq

/-- A successful pick_best keeps the first minimizer of the enumeration. -/
theorem pick_best_first {f e : Pt β} {perms : List (List (Pt β))} {c : List (Pt β)}
    (h : (pick_best f e perms).1 = some c) :
    ∃ u p v, perms = u ++ p :: v ∧ c = f :: p ++ [e] ∧
      path_length (f :: p ++ [e]) < 1e10 ∧
      (∀ q ∈ u, path_length (f :: p ++ [e]) < path_length (f :: q ++ [e])) ∧
      (∀ q ∈ v, path_length (f :: p ++ [e]) ≤ path_length (f :: q ++ [e])) := by
  rcases pb_foldl_first perms (none, 1e10) c h with ⟨-, h1⟩ | ⟨u, p, v, h1, h2, h3, h4, h5⟩
  · exact absurd h1 (by simp)
  · exact ⟨u, p, v, h1, h2, by simpa using h3, h4, h5⟩

/-- Decompose a list at the first occurrence of a member. -/
theorem exists_first_occ {a : Pt β} {l : List (Pt β)} (h : a ∈ l) :
    ∃ s t, l = s ++ a :: t ∧ ∀ y ∈ s, y ≠ a := by
  induction l with
  | nil => simp at h
  | cons x xs ih =>
    by_cases hx : x = a
    · exact ⟨[], xs, by simp [hx], by simp⟩
    · have hmem : a ∈ xs := by
        rcases List.mem_cons.mp h with rfl | h2
        · exact absurd rfl hx
        · exact h2
      obtain ⟨s, t, h1, h2⟩ := ih hmem
      refine ⟨x :: s, t, by rw [h1]; rfl, ?_⟩
      intro y hy
      rcases List.mem_cons.mp hy with rfl | hy
      · exact hx
      · exact h2 y hy

noncomputable instance (priority := low) : DecidableEq (Pt β) := Classical.decEq _

/-- Removing an index is, up to permutation, removing one occurrence of
the value found there. -/
theorem eraseIdx_perm_erase {l : List (Pt β)} {j : ℕ}
    (hj : j < l.length) :
    l.eraseIdx j ~ l.erase (l[j]) := by
  have h1 : l[j] :: l.eraseIdx j ~ l := by
    have := perm_get_cons_eraseIdx l ⟨j, hj⟩
    simpa using this
  have h2 : l ~ l[j] :: l.erase (l[j]) :=
    List.perm_cons_erase (List.getElem_mem hj)
  exact (h1.trans h2).cons_inv

/-- Erasing at the junction of an append removes the junction element. -/
theorem eraseIdx_append_mid (s t : List (Pt β)) (a : Pt β) :
    (s ++ a :: t).eraseIdx s.length = s ++ t := by
  induction s with
  | nil => rfl
  | cons x xs ih => simp [List.eraseIdx, ih]

/-- Reading at the junction of an append gives the junction element. -/
theorem getElem_append_mid (s t : List (Pt β)) (a : Pt β)
    (h : s.length < (s ++ a :: t).length) :
    (s ++ a :: t)[s.length] = a := by
  rw [List.getElem_append_right (le_refl s.length)]
  simp

/-- If a marked element is absent from the left part of another
decomposition of the same list, that part is a prefix of the left part of
the marked decomposition. -/
theorem append_eq_of_not_mem {α : Type} {u v P Q : List α} {m : α}
    (h : u ++ m :: v = P ++ Q) (hm : m ∉ P) :
    ∃ u₂, u = P ++ u₂ ∧ u₂ ++ m :: v = Q := by
  induction P generalizing u with
  | nil => exact ⟨u, by simp, by simpa using h⟩
  | cons p P' ih =>
    cases u with
    | nil =>
      exfalso
      rw [List.nil_append, List.cons_append] at h
      injection h with h1 _
      exact hm (by simp [h1])
    | cons a u' =>
      rw [List.cons_append, List.cons_append] at h
      injection h with h1 h2
      obtain ⟨u₂, h3, h4⟩ := ih h2 (fun hc => hm (by simp [hc]))
      exact ⟨u₂, by rw [h1, h3]; rfl, h4⟩

/-- If a marked element is absent from the left of its own decomposition
but present in the left part of another decomposition of the same list,
the other left part extends past the mark. -/
theorem append_mid_of_not_mem {α : Type} {u v P Q : List α} {m : α}
    (h : u ++ m :: v = P ++ Q) (hm : m ∉ u) (hmP : m ∈ P) :
    ∃ v₁, P = u ++ m :: v₁ ∧ v = v₁ ++ Q := by
  induction u generalizing P with
  | nil =>
    cases P with
    | nil => simp at hmP
    | cons p P' =>
      rw [List.nil_append, List.cons_append] at h
      injection h with h1 h2
      exact ⟨P', by rw [← h1]; rfl, h2⟩
  | cons a u' ih =>
    cases P with
    | nil => simp at hmP
    | cons p P' =>
      rw [List.cons_append, List.cons_append] at h
      injection h with h1 h2
      have hm' : m ∉ u' := fun hc => hm (by simp [hc])
      have hmP' : m ∈ P' := by
        rcases List.mem_cons.mp hmP with rfl | hP'
        · exact absurd (by rw [h1]; simp : m ∈ a :: u') hm
        · exact hP'
      obtain ⟨v₁, h3, h4⟩ := ih h2 hm' hmP'
      exact ⟨v₁, by rw [h3, h1]; rfl, h4⟩

/-- Splitting a mapped cons enumeration. -/
theorem map_cons_eq_split {m0 : Pt β} {subs A C : List (List (Pt β))}
    {m : List (Pt β)}
    (h : subs.map (m0 :: ·) = A ++ m :: C) :
    ∃ sa m₁ sc, subs = sa ++ m₁ :: sc ∧ sa.map (m0 :: ·) = A ∧ m = m0 :: m₁ ∧
      sc.map (m0 :: ·) = C := by
  rcases List.map_eq_append_iff.mp h with ⟨sa, rest, hsubs, hA, hrest⟩
  cases rest with
  | nil => simp at hrest
  | cons m₁ sc =>
    rw [List.map_cons] at hrest
    injection hrest with hh ht
    exact ⟨sa, m₁, sc, hsubs, hA, hh.symm, ht⟩

/-- lexPermsAux with exact fuel is lexPerms. -/
theorem lexPermsAux_eq_lexPerms {α : Type} {l : List α} {fuel : ℕ}
    (h : l.length = fuel) : lexPermsAux fuel l = lexPerms l := by
  rw [lexPerms, h]

/-- Splitting the lexicographic permutation enumeration at block k: the
enumeration is the blocks headed by earlier positions, then the block of
all permutations starting with the element at position k, then the rest.
The early blocks are characterized exactly. -/
theorem lexPerms_split (B : List (Pt β)) (k : ℕ) (hk : k < B.length) :
    ∃ X Y, lexPerms B =
        X ++ ((lexPerms (B.eraseIdx k)).map (B[k] :: ·) ++ Y) ∧
      (∀ q ∈ X, ∃ (j : ℕ) (hj : j < B.length), j < k ∧
        ∃ q', q = B[j] :: q' ∧ q' ~ B.eraseIdx j) ∧
      (∀ (j : ℕ) (hj : j < B.length) (q' : List (Pt β)), j < k → q' ~ B.eraseIdx j →
        (B[j] :: q') ∈ X) := by
  match B, hk with
  | x :: xs, hk =>
  set B := x :: xs with hB
  have hn : B.length = xs.length + 1 := rfl
  have hunfold : lexPerms B = (List.finRange B.length).flatMap
      (fun i => (lexPermsAux xs.length (B.eraseIdx (i : ℕ))).map (B.get i :: ·)) := rfl
  have herlen : ∀ j : ℕ, j < B.length → (B.eraseIdx j).length = xs.length := by
    intro j hj
    rw [List.length_eraseIdx]
    simp only [hj, if_pos]
    rw [hn]
    omega
  have hfr : List.finRange B.length = (List.finRange B.length).take k ++
      ((⟨k, hk⟩ : Fin B.length) :: (List.finRange B.length).drop (k + 1)) := by
    conv_lhs => rw [← List.take_append_drop k (List.finRange B.length)]
    congr 1
    rw [List.drop_eq_getElem_cons (by simp [List.length_finRange]; omega)]
    congr 1
    simp [List.getElem_finRange]
  have htake : ∀ i : Fin B.length, i ∈ (List.finRange B.length).take k ↔ (i : ℕ) < k := by
    intro i
    constructor
    · intro hi
      obtain ⟨j, hj, hji⟩ := List.mem_iff_getElem.mp hi
      have hjk : j < k := by
        rw [List.length_take, List.length_finRange] at hj
        omega
      have hj2 : j < B.length := by
        rw [List.length_take, List.length_finRange] at hj
        omega
      rw [List.getElem_take] at hji
      rw [← hji]
      simpa [List.getElem_finRange] using hjk
    · intro hik
      refine List.mem_iff_getElem.mpr ⟨(i : ℕ), ?_, ?_⟩
      · rw [List.length_take, List.length_finRange]
        omega
      · rw [List.getElem_take]
        simp [List.getElem_finRange]
  refine ⟨((List.finRange B.length).take k).flatMap
      (fun i => (lexPermsAux xs.length (B.eraseIdx (i : ℕ))).map (B.get i :: ·)),
    ((List.finRange B.length).drop (k + 1)).flatMap
      (fun i => (lexPermsAux xs.length (B.eraseIdx (i : ℕ))).map (B.get i :: ·)),
    ?_, ?_, ?_⟩
  · rw [hunfold]
    conv_lhs => rw [hfr]
    rw [List.flatMap_append, List.flatMap_cons]
    congr 2
    rw [lexPermsAux_eq_lexPerms (herlen k hk)]
    rfl
  · intro q hq
    rcases List.mem_flatMap.mp hq with ⟨i, hi, hqi⟩
    rcases List.mem_map.mp hqi with ⟨q', hq', rfl⟩
    have hik : (i : ℕ) < k := (htake i).mp hi
    refine ⟨(i : ℕ), i.isLt, hik, q', ?_, ?_⟩
    · rw [List.get_eq_getElem]
    · exact lexPermsAux_sound xs.length _ q' (le_of_eq (herlen i i.isLt)) hq'
  · intro j hj q' hjk hq'
    refine List.mem_flatMap.mpr ⟨⟨j, hj⟩, (htake ⟨j, hj⟩).mpr hjk, ?_⟩
    refine List.mem_map.mpr ⟨q', ?_, ?_⟩
    · exact lexPermsAux_complete xs.length _ q' (le_of_eq (herlen j hj)) hq'
    · rw [List.get_eq_getElem]

/-- The entry m sits in the enumeration perms with only strictly costlier
entries before it. -/
def FirstStrict (g : List (Pt β) → ℝ) (perms : List (List (Pt β)))
    (m : List (Pt β)) : Prop :=
  ∃ u v, perms = u ++ m :: v ∧ ∀ q ∈ u, g m < g q

/-- The enumeration-order core of idempotence: if m is a permutation of a
sorted base I and, in the lexicographic enumeration of the permutations of
I, only strictly costlier entries precede m, then the same holds in the
enumeration based on the stable sort of m itself. -/
theorem lex_first_transfer :
    ∀ (N : ℕ) (g : List (Pt β) → ℝ) (m I : List (Pt β)), m.length ≤ N →
      I.Sorted wle → m ~ I → FirstStrict g (lexPerms I) m →
      FirstStrict g (lexPerms (sortWE m)) m := by
  intro N
  induction N with
  | zero =>
    intro g m I hN _ _ _
    have hm : m = [] := by
      cases m with
      | nil => rfl
      | cons a l => simp at hN
    subst hm
    exact ⟨[], [], rfl, by simp⟩
  | succ N ih =>
    intro g m I hN hsorted hperm hfirst
    cases m with
    | nil => exact ⟨[], [], rfl, by simp⟩
    | cons m0 m' =>
      have hm0I : m0 ∈ I := hperm.subset (by simp)
      obtain ⟨s, t, hI, hs_ne⟩ := exists_first_occ hm0I
      subst hI
      have hkn : s.length < (s ++ m0 :: t).length := by simp
      obtain ⟨XI, YI, hIsplit, hXIchar, hXImem⟩ :=
        lexPerms_split (s ++ m0 :: t) s.length hkn
      rw [getElem_append_mid s t m0 (by simp), eraseIdx_append_mid s t m0] at hIsplit
      obtain ⟨u, v, hueq, hustrict⟩ := hfirst
      rw [hIsplit] at hueq
      have hmnotXI : (m0 :: m') ∉ XI := by
        intro hmem
        obtain ⟨j, hj, hjk, q', hq, -⟩ := hXIchar _ hmem
        injection hq with h1 _
        have h2 : (s ++ m0 :: t)[j] = s[j] := List.getElem_append_left hjk
        exact hs_ne (s[j]) (List.getElem_mem _) (by rw [← h2, ← h1])
      obtain ⟨u₂, hu2, hrest⟩ := append_eq_of_not_mem hueq.symm hmnotXI
      have hmnotu : (m0 :: m') ∉ u := by
        intro hmem
        exact lt_irrefl _ (hustrict _ hmem)
      have hmnotu₂ : (m0 :: m') ∉ u₂ := fun hc => hmnotu (by rw [hu2]; simp [hc])
      have hm'perm : m' ~ s ++ t := by
        have h2 : (s ++ m0 :: t) ~ m0 :: (s ++ t) := List.perm_middle
        exact (hperm.trans h2).cons_inv
      have hmblock : (m0 :: m') ∈ (lexPerms (s ++ t)).map (m0 :: ·) :=
        List.mem_map.mpr ⟨m', lexPerms_complete hm'perm, rfl⟩
      obtain ⟨v₁, hblockeq, hveq⟩ := append_mid_of_not_mem hrest hmnotu₂ hmblock
      obtain ⟨sa, m₁, sc, hsubs, hmapA, hm1, hmapC⟩ := map_cons_eq_split hblockeq
      have hm1' : m' = m₁ := by injection hm1
      subst hm1'
      have hsub : FirstStrict (fun q => g (m0 :: q)) (lexPerms (s ++ t)) m' := by
        refine ⟨sa, sc, hsubs, ?_⟩
        intro q hq
        have hqu : (m0 :: q) ∈ u := by
          rw [hu2]
          refine List.mem_append.mpr (Or.inr ?_)
          rw [← hmapA]
          exact List.mem_map.mpr ⟨q, hq, rfl⟩
        exact hustrict _ hqu
      have hE1 : ∀ y q', y ∈ (s ++ m0 :: t) → ¬ wle m0 y →
          q' ~ (s ++ m0 :: t).erase y → g (m0 :: m') < g (y :: q') := by
        intro y q' hy hwle hq'
        have hyt : ∀ z ∈ m0 :: t, wle m0 z := by
          have hst : (m0 :: t).Sorted wle := (List.pairwise_append.mp hsorted).2.1
          intro z hz
          rcases List.mem_cons.mp hz with rfl | hz
          · exact le_rfl
          · exact (List.sorted_cons.mp hst).1 z hz
        have hys : y ∈ s := by
          rcases List.mem_append.mp hy with h | h
          · exact h
          · exact absurd (hyt y h) hwle
        obtain ⟨j, hjs, hjy⟩ := List.mem_iff_getElem.mp hys
        have hjn : j < (s ++ m0 :: t).length := by simp; omega
        have hjb : (s ++ m0 :: t)[j] = y := by
          rw [List.getElem_append_left hjs, hjy]
        have h2 := eraseIdx_perm_erase (l := s ++ m0 :: t) hjn
        rw [hjb] at h2
        have hq'2 : q' ~ (s ++ m0 :: t).eraseIdx j := hq'.trans h2.symm
        have hmem := hXImem j hjn q' hjs hq'2
        rw [hjb] at hmem
        have hqu : (y :: q') ∈ u := by
          rw [hu2]
          exact List.mem_append.mpr (Or.inl hmem)
        exact hustrict _ hqu
      have hsorted' : (s ++ t).Sorted wle :=
        hsorted.sublist ((List.sublist_cons_self m0 t).append_left s)
      have hlen' : m'.length ≤ N := by
        simp at hN
        omega
      have hIH := ih (fun q => g (m0 :: q)) m' (s ++ t) hlen' hsorted' hm'perm hsub
      obtain ⟨uJ, wJ, hJeq, hJw, hJu⟩ := orderedInsert_decomp m0 (sortWE m')
      have hJdef : sortWE (m0 :: m') = uJ ++ m0 :: wJ := hJeq
      have hkJ : uJ.length < (uJ ++ m0 :: wJ).length := by simp
      obtain ⟨XJ, YJ, hJsplit, hXJchar, -⟩ :=
        lexPerms_split (uJ ++ m0 :: wJ) uJ.length hkJ
      rw [getElem_append_mid uJ wJ m0 (by simp), eraseIdx_append_mid uJ wJ m0] at hJsplit
      rw [← hJw] at hJsplit
      obtain ⟨su, sv, hsueq, hsustrict⟩ := hIH
      rw [hsueq] at hJsplit
      simp only [List.map_append, List.map_cons] at hJsplit
      refine ⟨XJ ++ su.map (m0 :: ·), sv.map (m0 :: ·) ++ YJ, ?_, ?_⟩
      · rw [hJdef, hJsplit]
        simp only [List.append_assoc, List.cons_append]
      · intro q hq
        rcases List.mem_append.mp hq with hq | hq
        · obtain ⟨j, hj, hjk, q', hqe, hq'⟩ := hXJchar q hq
          have hhead : (uJ ++ m0 :: wJ)[j] = uJ[j] := List.getElem_append_left hjk
          have hyuJ : uJ[j] ∈ uJ := List.getElem_mem _
          have hyI : uJ[j] ∈ (s ++ m0 :: t) := by
            have h1 : uJ[j] ∈ sortWE m' := by
              rw [hJw]
              exact List.mem_append.mpr (Or.inl hyuJ)
            have h2 : uJ[j] ∈ m' := (sortWE_perm m').subset h1
            exact hperm.subset (by simp [h2])
          have hq'erase : q' ~ (s ++ m0 :: t).erase (uJ[j]) := by
            have h2 := eraseIdx_perm_erase (l := uJ ++ m0 :: wJ) hj
            rw [hhead] at h2
            have h3 : (uJ ++ m0 :: wJ) ~ (s ++ m0 :: t) := by
              calc uJ ++ m0 :: wJ = sortWE (m0 :: m') := hJdef.symm
                _ ~ (m0 :: m') := sortWE_perm _
                _ ~ (s ++ m0 :: t) := hperm
            exact (hq'.trans h2).trans (h3.erase _)
          rw [hqe, hhead]
          exact hE1 _ q' hyI (hJu _ hyuJ) hq'erase
        · obtain ⟨q', hq', rfl⟩ := List.mem_map.mp hq
          exact hsustrict q' hq'

/-- Idempotence on the exhaustive branch. -/
theorem opt_idem_exact {l out : List (Pt β)} (hb : (sortWE l).length ≤ 10)
    (hout : optimize_order l = some out) : optimize_order out = some out := by
  obtain ⟨s0, rest, hs⟩ := List.exists_cons_of_ne_nil (opt_some_sort_ne_nil hout)
  rw [optimize_order_eq_exact hb hs] at hout
  rcases eq_or_ne rest [] with rfl | hrest_ne
  · obtain ⟨p, hp, hcand, -, -⟩ := pick_best_spec hout
    have hp' : p ∈ ([[]] : List (List (Pt β))) := hp
    have hp0 : p = [] := by simpa using hp'
    subst hp0
    subst hcand
    exact opt_dup s0
  · set I := rest.dropLast with hIdef
    set lastE := rest.getLastD s0 with hLdef
    obtain ⟨u, p, v, hsplit, hcand, hlt, hu, hv⟩ := pick_best_first hout
    subst hcand
    have hmin : ∀ q ∈ lexPerms I,
        path_length (s0 :: p ++ [lastE]) ≤ path_length (s0 :: q ++ [lastE]) := by
      intro q hq
      rw [hsplit] at hq
      rcases List.mem_append.mp hq with h | h
      · exact le_of_lt (hu q h)
      · rcases List.mem_cons.mp h with rfl | h
        · exact le_rfl
        · exact hv q h
    have hl_sorted := sortWE_sorted l
    rw [hs] at hl_sorted
    have hrest_sorted : rest.Sorted wle := hl_sorted.of_cons
    have hI_sorted : I.Sorted wle := hrest_sorted.sublist (List.dropLast_sublist rest)
    have hpperm : p ~ I := lexPerms_sound (show p ∈ lexPerms I by rw [hsplit]; simp)
    have hs0_all : ∀ x ∈ rest, wle s0 x := (List.sorted_cons.mp hl_sorted).1
    have hlastE_eq : lastE = rest.getLast hrest_ne := by
      rw [hLdef, List.getLastD_eq_getLast? s0 rest, List.getLast?_eq_getLast rest hrest_ne]
      rfl
    have hrest_decomp : I ++ [lastE] = rest := by
      rw [hlastE_eq, hIdef, List.dropLast_append_getLast hrest_ne]
    have h0mid : ∀ x ∈ p, wle s0 x := by
      intro x hx
      refine hs0_all x ?_
      rw [← hrest_decomp]
      exact List.mem_append.mpr (Or.inl (hpperm.subset hx))
    have h0e : wle s0 lastE := by
      refine hs0_all lastE ?_
      rw [← hrest_decomp]
      simp
    have hmid_e : ∀ x ∈ p, wle x lastE := by
      intro x hx
      have h2 : (I ++ [lastE]).Sorted wle := by rw [hrest_decomp]; exact hrest_sorted
      exact (List.pairwise_append.mp h2).2.2 x (hpperm.subset hx) lastE (by simp)
    have hsout : sortWE ((s0 :: p) ++ [lastE]) = (s0 :: sortWE p) ++ [lastE] :=
      sortWE_exact_out h0mid h0e hmid_e
    have hlenout : (sortWE ((s0 :: p) ++ [lastE])).length ≤ 10 := by
      rw [hsout]
      have h1 : (sortWE p).length = p.length := length_sortWE p
      have h2 : p.length = I.length := hpperm.length_eq
      have h3 : I.length = rest.length - 1 := by rw [hIdef, List.length_dropLast]
      have h4 : rest.length + 1 = (sortWE l).length := by rw [hs]; rfl
      have h5 : 1 ≤ rest.length := by
        cases rest with
        | nil => exact absurd rfl hrest_ne
        | cons a as => simp
      simp only [List.length_append, List.length_cons, List.length_singleton,
        List.length_nil, h1, h2, h3]
      omega
    have hs' : sortWE ((s0 :: p) ++ [lastE]) = s0 :: (sortWE p ++ [lastE]) := by
      rw [hsout]
      rfl
    rw [optimize_order_eq_exact hlenout hs']
    have hgl : (sortWE p ++ [lastE]).getLastD s0 = lastE := by
      rw [List.getLastD_eq_getLast? s0 (sortWE p ++ [lastE]), List.getLast?_concat]
      rfl
    have hdl : (sortWE p ++ [lastE]).dropLast = sortWE p := List.dropLast_concat
    rw [hgl, hdl]
    have hFS : FirstStrict (fun q => path_length (s0 :: q ++ [lastE])) (lexPerms I) p :=
      ⟨u, v, hsplit, hu⟩
    obtain ⟨u', v', hsplit', hu'⟩ :=
      lex_first_transfer p.length (fun q => path_length (s0 :: q ++ [lastE])) p I
        le_rfl hI_sorted hpperm hFS
    rw [hsplit']
    refine pick_best_of_split hlt hu' ?_
    intro q hq
    refine hmin q (lexPerms_complete ?_)
    have hqmem : q ∈ lexPerms (sortWE p) := by
      rw [hsplit']
      simp [hq]
    exact (lexPerms_sound hqmem).trans ((sortWE_perm p).trans hpperm)

/-- Idempotence of optimize_order (bounded-length version for the
induction). -/
theorem opt_idem_aux (n : ℕ) :
    ∀ (l out : List (Pt β)), l.length ≤ n →
      optimize_order l = some out → optimize_order out = some out := by
  induction n with
  | zero =>
    intro l out h1 hout
    have hl : l = [] := by
      cases l with
      | nil => rfl
      | cons a as => simp at h1
    subst hl
    rw [optimize_order_nil] at hout
    exact absurd hout (by simp)
  | succ n ih =>
    intro l out hlen hout
    by_cases hbig : 10 < (sortWE l).length
    · rw [optimize_order_eq_split hbig] at hout
      obtain ⟨ra, hra, hmap⟩ := Option.bind_eq_some.mp hout
      obtain ⟨rb, hrb, rfl⟩ := Option.map_eq_some'.mp hmap
      have hslen : (sortWE l).length = l.length := length_sortWE l
      have h11 : 11 ≤ l.length := by omega
      have hta : ((sortWE l).take ((sortWE l).length / 2)).length =
          (sortWE l).length / 2 := by
        rw [List.length_take]
        omega
      have htb : ((sortWE l).drop ((sortWE l).length / 2)).length =
          (sortWE l).length - (sortWE l).length / 2 := List.length_drop _ _
      have hra' : ra ~ (sortWE l).take ((sortWE l).length / 2) :=
        opt_perm (by omega) hra
      have hrb' : rb ~ (sortWE l).drop ((sortWE l).length / 2) :=
        opt_perm (by omega) hrb
      have hira : optimize_order ra = some ra := ih _ ra (by omega) hra
      have hirb : optimize_order rb = some rb := ih _ rb (by omega) hrb
      have hcross : ∀ a ∈ ra, ∀ b ∈ rb, wle a b := by
        intro a ha b hb
        have hpw : ((sortWE l).take ((sortWE l).length / 2) ++
            (sortWE l).drop ((sortWE l).length / 2)).Pairwise wle := by
          rw [List.take_append_drop]
          exact sortWE_sorted l
        exact (List.pairwise_append.mp hpw).2.2 a (hra'.subset ha) b (hrb'.subset hb)
      have hsortsplit : sortWE (ra ++ rb) = sortWE ra ++ sortWE rb :=
        sortWE_append_split hcross
      have hlra : ra.length = (sortWE l).length / 2 := by rw [hra'.length_eq, hta]
      have hlrb : rb.length = (sortWE l).length - (sortWE l).length / 2 := by
        rw [hrb'.length_eq, htb]
      have houtlen : (sortWE (ra ++ rb)).length = l.length := by
        rw [length_sortWE, List.length_append]
        omega
      have hbig' : 10 < (sortWE (ra ++ rb)).length := by omega
      rw [optimize_order_eq_split hbig']
      have hhalf : (sortWE (ra ++ rb)).length / 2 = (sortWE l).length / 2 := by
        rw [houtlen, hslen]
      have hlen_sra : (sortWE l).length / 2 = (sortWE ra).length := by
        rw [length_sortWE ra, hlra]
      have htake : (sortWE (ra ++ rb)).take ((sortWE (ra ++ rb)).length / 2) =
          sortWE ra := by
        rw [hhalf, hsortsplit, hlen_sra]
        exact List.take_left _ _
      have hdrop : (sortWE (ra ++ rb)).drop ((sortWE (ra ++ rb)).length / 2) =
          sortWE rb := by
        rw [hhalf, hsortsplit, hlen_sra]
        exact List.drop_left _ _
      rw [htake, hdrop, opt_congr (sortWE_idem ra), opt_congr (sortWE_idem rb),
        hira, hirb]
      rfl
    · push_neg at hbig
      exact opt_idem_exact hbig hout

/-- C6: optimize_order is idempotent. Whenever it returns a list, running
it again on that list returns the same list, x-ties and duplicate points
included: the stable sort keeps tied elements in the order the first run
emitted them, and the enumeration of interior permutations then finds the
first run's choice first again. -/
theorem claim_C6_idempotent {l out : List (Pt β)} (hout : optimize_order l = some out) :
    optimize_order out = some out :=
  opt_idem_aux l.length l out le_rfl hout

/-- C6 witness: idempotence at a concrete two-element input, the
hypothesis discharged by evaluation. -/
theorem claim_C6_witness :
    optimize_order [mkPt 8 2 "v1" 7, mkPt 5 2 "v2" 8] =
      some [mkPt 8 2 "v1" 7, mkPt 5 2 "v2" 8] := by
  have hpair : optimize_order [mkPt 8 2 "v1" 7, mkPt 5 2 "v2" 8] =
      some [mkPt 8 2 "v1" 7, mkPt 5 2 "v2" 8] := by
    refine opt_pair (by norm_num [wle, xc, mkPt]) ?_
    rw [hypot_eval (c := 3) (by norm_num [xc, yc, mkPt]) (by norm_num)]
    norm_num
  exact claim_C6_idempotent hpair

end Claim_C6

end Viewplan
